import Mathlib

/-!
Verification of the JarPy aggregation and chunked-archiving pipeline.

This file is a shallow embedding, in Lean 4, of the core of `jarpy.py`:
the extension classifier, the text aggregator (`create_context_files`),
the archive packer (`create_archives`), and the two orchestrator flows
of `main` (Individual mode and Combined mode).

Modelling conventions:

* File paths are `String`s; Python's `Path` ordering is modelled by the
  lexicographic order on strings (a total, deterministic order, as required).
* File contents are byte lists (`List Nat`, each < 256); decoded text is a
  list of Unicode code points (`List Nat`).
* `max_size_bytes = max_size_mb * 1024 * 1024` is a Python float; the models
  take the byte bound directly as a natural number (exact for integral
  megabyte values such as the 100.0 MB default).
* Each interaction with the real file system is made explicit: a source
  file carries the outcome of its `stat` call (`none` models a
  `FileNotFoundError`) and the outcome of reading it (`bytes`,
  `notFound` for a `FileNotFoundError` at read time, or `raisesOther`
  for any other exception such as an `OSError`).  An uncaught Python
  exception is modelled by `Except.error` carrying the state at the point
  the exception escapes.
* A bundle file is modelled by the list of records written to it; the
  exact header text written before each record is reproduced by
  `contextHeader` / `combinedHeaderStr` and the byte-for-byte rendering of
  a bundle by `ctxRecordText` / `combContent`.  (On the error path where a
  read raises after the header write, the dangling header is not recorded;
  no claim concerns the bytes of a bundle on an error path.)
-/

/-- The hard-coded set of binary extensions skipped in context mode
(`BINARY_EXTENSIONS` in `jarpy.py`). -/
def BINARY_EXTENSIONS : List String :=
  [".png", ".jpg", ".jpeg", ".gif", ".bmp", ".ico", ".webp",
   ".ogg", ".mp3", ".wav", ".flac",
   ".ttf", ".woff", ".woff2", ".eot",
   ".bin", ".dat", ".class"]

/-- The final path component (Python `Path.name`): the characters after
the last `/`. -/
def lastComponent (p : String) : String :=
  String.mk ((p.data.reverse.takeWhile fun c => c ≠ '/').reverse)

/-- Index of the final dot in a character list, if any. -/
def lastDotIdx (cs : List Char) : Option Nat :=
  match cs.reverse.findIdx? (fun c => c = '.') with
  | some j => some (cs.length - 1 - j)
  | none => none

/-- Python `Path.suffix`: the last dot-suffix of the final component,
or `""` when the name has no internal dot (leading or trailing dots do
not count). -/
def pathSuffix (p : String) : String :=
  let n := lastComponent p
  match lastDotIdx n.data with
  | some i => if 0 < i ∧ i + 1 < n.data.length then String.mk (n.data.drop i) else ""
  | none => ""

/-- ASCII lowercasing of one character (file extensions are ASCII, so this
agrees with Python's `str.lower()` on every key the pipeline produces). -/
def charLower (c : Char) : Char :=
  if 'A' ≤ c ∧ c ≤ 'Z' then Char.ofNat (c.toNat + 32) else c

/-- The classification key of a path: `file_path.suffix.lower() or 'no_extension'`. -/
def extOf (p : String) : String :=
  let s := String.mk ((pathSuffix p).data.map charLower)
  if s = "" then "no_extension" else s

/-- Python `file_path.relative_to(src_path)`, for the case where `p` lies
under `base` (the only case exercised by the pipeline, where `p` was
enumerated by `rglob` below `base`). -/
def relativeTo (base p : String) : String :=
  let b := base ++ "/"
  if b.data.isPrefixOf p.data then String.mk (p.data.drop b.data.length) else p

/-- Code points of a string. -/
def strCodes (s : String) : List Nat := s.data.map Char.toNat

/-- Lexicographic comparison of code-point lists. -/
def codeLe : List Nat → List Nat → Bool
  | [], _ => true
  | _ :: _, [] => false
  | a :: as, b :: bs => if a < b then true else if a = b then codeLe as bs else false

/-- Python's string comparison: lexicographic by code point.  `sorted` and
`list.sort()` on paths are modelled with this order. -/
def strLe (a b : String) : Bool := codeLe (strCodes a) (strCodes b)

/-- `'='*n`. -/
def eqBar (n : Nat) : String := String.mk (List.replicate n '=')

/-- The per-file header of Individual (context) mode:
`f"\n{'='*25} START: {file_path.relative_to(src_path)} {'='*25}\n\n"`. -/
def contextHeader (relPath : String) : String :=
  "\n" ++ eqBar 25 ++ " START: " ++ relPath ++ " " ++ eqBar 25 ++ "\n\n"

/-- The per-file header of Combined mode, stamping both the source JAR
name and the file name. -/
def combinedHeaderStr (jarName fileName : String) : String :=
  "\n" ++ eqBar 30 ++ "\n=== SOURCE JAR: " ++ jarName ++ "\n=== FILE:       "
    ++ fileName ++ "\n" ++ eqBar 30 ++ "\n\n"

/-! ## Text decoding

`file_path.read_text(encoding='utf-8')` decodes the file's bytes as strict
UTF-8 and raises `UnicodeDecodeError` on invalid data; the fallback
`read_text(encoding='latin-1', errors='replace')` maps every byte `b` to
the code point `b` and can never fail (so `errors='replace'` never fires).
-/

/-- Is `b` a UTF-8 continuation byte (`0x80..0xBF`)? -/
def contB (b : Nat) : Bool := decide (0x80 ≤ b) && decide (b ≤ 0xBF)

/-- Constraint on the first continuation byte of a 3-byte sequence
(excludes overlong encodings and surrogates, as Python's strict codec does). -/
def utf8Cont3 (b0 b1 : Nat) : Bool :=
  if b0 = 0xE0 then decide (0xA0 ≤ b1) && decide (b1 ≤ 0xBF)
  else if b0 = 0xED then decide (0x80 ≤ b1) && decide (b1 ≤ 0x9F)
  else contB b1

/-- Constraint on the first continuation byte of a 4-byte sequence. -/
def utf8Cont4 (b0 b1 : Nat) : Bool :=
  if b0 = 0xF0 then decide (0x90 ≤ b1) && decide (b1 ≤ 0xBF)
  else if b0 = 0xF4 then decide (0x80 ≤ b1) && decide (b1 ≤ 0x8F)
  else contB b1

/-- Strict UTF-8 decoding of a byte list into code points; `none` models
`UnicodeDecodeError`. -/
def utf8Decode : List Nat → Option (List Nat)
  | [] => some []
  | b0 :: rest =>
    if b0 ≤ 0x7F then
      (utf8Decode rest).map fun cs => b0 :: cs
    else if 0xC2 ≤ b0 ∧ b0 ≤ 0xDF then
      match rest with
      | b1 :: rest2 =>
        if contB b1 then
          (utf8Decode rest2).map fun cs => ((b0 - 0xC0) * 64 + (b1 - 0x80)) :: cs
        else none
      | [] => none
    else if 0xE0 ≤ b0 ∧ b0 ≤ 0xEF then
      match rest with
      | b1 :: b2 :: rest3 =>
        if utf8Cont3 b0 b1 && contB b2 then
          (utf8Decode rest3).map fun cs =>
            ((b0 - 0xE0) * 4096 + (b1 - 0x80) * 64 + (b2 - 0x80)) :: cs
        else none
      | _ => none
    else if 0xF0 ≤ b0 ∧ b0 ≤ 0xF4 then
      match rest with
      | b1 :: b2 :: b3 :: rest4 =>
        if utf8Cont4 b0 b1 && contB b2 && contB b3 then
          (utf8Decode rest4).map fun cs =>
            ((b0 - 0xF0) * 262144 + (b1 - 0x80) * 4096 + (b2 - 0x80) * 64 + (b3 - 0x80)) :: cs
        else none
      | _ => none
    else none

/-- Latin-1 decoding: every byte `b` becomes code point `b`; total. -/
def latin1Decode (bs : List Nat) : List Nat := bs

/-- The `try: read_text('utf-8') / except UnicodeDecodeError: read_text('latin-1',
errors='replace')` block applied to the bytes of a file. -/
def decodeContent (bs : List Nat) : List Nat :=
  match utf8Decode bs with
  | some cs => cs
  | none => latin1Decode bs

/-! ## Source files and read outcomes -/

/-- Outcome of reading a file's bytes. -/
inductive ReadOutcome where
  | bytes (bs : List Nat)
  | notFound
  | raisesOther
deriving DecidableEq, Repr

/-- A file of an extracted tree: its full path, the outcome of `stat`
(`none` = `FileNotFoundError`), and the outcome of reading it. -/
structure SrcFile where
  path : String
  statSize : Option Nat
  readRes : ReadOutcome
deriving DecidableEq, Repr

instance : DecidableRel (fun a b : SrcFile => strLe a.path b.path = true) :=
  fun a b => inferInstanceAs (Decidable (strLe a.path b.path = true))

instance : DecidableRel (fun a b : String => strLe a b = true) :=
  fun a b => inferInstanceAs (Decidable (strLe a b = true))

/-- `files.sort()` on a list of paths-with-metadata. -/
def sortFiles (files : List SrcFile) : List SrcFile :=
  files.insertionSort (fun a b => strLe a.path b.path = true)

/-- `files.sort()` on a list of plain paths. -/
def sortPaths (files : List String) : List String :=
  files.insertionSort (fun a b => strLe a b = true)

/-! ## Individual-mode aggregator: `create_context_files` -/

/-- One record of a context bundle: the relative path written in its
header, the `stat` size that was added to `current_size` for it, and its
decoded content. -/
structure BundleEntry where
  relPath : String
  statSize : Nat
  content : List Nat
deriving DecidableEq, Repr

/-- A context bundle file: its path and the records written to it. -/
structure BundleFile where
  name : String
  entries : List BundleEntry
deriving DecidableEq, Repr

/-- Byte-for-byte rendering of one record of an Individual-mode bundle:
the header write followed by the content write. -/
def ctxRecordText (e : BundleEntry) : List Nat :=
  strCodes (contextHeader e.relPath) ++ e.content

/-- The state of `create_context_files`: handles opened and closed so far,
the accumulating `context_files` return list, finished bundles, the open
bundle (if any), and the per-key `part_num` / `current_size` locals. -/
structure RunState where
  opened : List String
  closed : List String
  contextFiles : List String
  finished : List BundleFile
  cur : Option BundleFile
  partNum : Nat
  currentSize : Nat
deriving DecidableEq, Repr

/-- `outfile.close()`: move the open bundle to the finished list. -/
def closeCur (st : RunState) : RunState :=
  match st.cur with
  | none => st
  | some b =>
    { st with closed := st.closed ++ [b.name], finished := st.finished ++ [b], cur := none }

/-- The path of part `i` of key-stem `stem` under `outputPath`. -/
def partName (outputPath stem : String) (i : Nat) : String :=
  outputPath ++ "/" ++ stem ++ "_" ++ toString i ++ ".txt"

/-- `ext[1:] if ext.startswith('.') else ext`. -/
def stripDot (ext : String) : String :=
  match ext.data with
  | '.' :: rest => String.mk rest
  | _ => ext

/-- The loop body of `create_context_files` for one file: `stat` (skip on
`FileNotFoundError`), the close-and-advance check, the lazy open, the
header and content writes (the content read may raise), and the
`current_size` update. -/
def stepFile (maxB : Nat) (outputPath srcPath stem : String) (st : RunState)
    (f : SrcFile) : Except RunState RunState :=
  match f.statSize with
  | none => .ok st
  | some fileSize =>
    let st1 :=
      if st.cur.isSome ∧ st.currentSize + fileSize > maxB ∧ 0 < st.currentSize then
        { closeCur st with partNum := st.partNum + 1, currentSize := 0 }
      else st
    let st2 :=
      match st1.cur with
      | some _ => st1
      | none =>
        let n := partName outputPath stem st1.partNum
        { st1 with cur := some ⟨n, []⟩,
                   opened := st1.opened ++ [n],
                   contextFiles := st1.contextFiles ++ [n] }
    match f.readRes with
    | .bytes bs =>
      .ok { st2 with
              cur := st2.cur.map fun b =>
                { b with entries :=
                    b.entries ++ [⟨relativeTo srcPath f.path, fileSize, decodeContent bs⟩] },
              currentSize := st2.currentSize + fileSize }
    | .notFound => .error st2
    | .raisesOther => .error st2

/-- The inner `for file_path in files` loop. -/
def processFiles (maxB : Nat) (outputPath srcPath stem : String) :
    RunState → List SrcFile → Except RunState RunState
  | st, [] => .ok st
  | st, f :: fs =>
    match stepFile maxB outputPath srcPath stem st f with
    | .ok st' => processFiles maxB outputPath srcPath stem st' fs
    | .error e => .error e

/-- Processing of one non-binary key: sort the files, reset the per-key
locals, run the file loop, and close the still-open bundle at the end. -/
def processKey (maxB : Nat) (outputPath srcPath : String) (st : RunState)
    (ext : String) (files : List SrcFile) : Except RunState RunState :=
  let stem := stripDot ext ++ "_context"
  match processFiles maxB outputPath srcPath stem
      { st with partNum := 1, currentSize := 0, cur := none } (sortFiles files) with
  | .ok st' => .ok (closeCur st')
  | .error e => .error e

/-- The `for ext, files in grouped_files.items()` loop; also returns the
final value of each key's (mutable) file list, since `files.sort()`
permutes the caller's lists in place for non-binary keys. -/
def ctxGo (maxB : Nat) (outputPath srcPath : String) :
    RunState → List (String × List SrcFile) →
    Except RunState (RunState × List (String × List SrcFile))
  | st, [] => .ok (st, [])
  | st, (ext, files) :: rest =>
    if ext ∈ BINARY_EXTENSIONS then
      match ctxGo maxB outputPath srcPath st rest with
      | .ok (st', ga) => .ok (st', (ext, files) :: ga)
      | .error e => .error e
    else
      match processKey maxB outputPath srcPath st ext files with
      | .ok st' =>
        match ctxGo maxB outputPath srcPath st' rest with
        | .ok (st'', ga) => .ok (st'', (ext, sortFiles files) :: ga)
        | .error e => .error e
      | .error e => .error e

/-- The initial state of an aggregation run: nothing opened or written. -/
def initState : RunState := ⟨[], [], [], [], none, 1, 0⟩

/-- `create_context_files(grouped_files, output_path, src_path, max_size)`:
on normal completion returns the final state (whose `contextFiles` field is
the function's return value) together with the final contents of the
caller's grouped lists; an uncaught exception is `Except.error` with the
state at the raise point. -/
def create_context_files (grouped : List (String × List SrcFile))
    (outputPath srcPath : String) (maxB : Nat) :
    Except RunState (RunState × List (String × List SrcFile)) :=
  ctxGo maxB outputPath srcPath initState grouped

/-! ## Archive packer: `create_archives` -/

/-- Consecutive chunks of at most `n` elements (the slices
`files[i:i+chunk_size]` for `i in range(0, len(files), chunk_size)`,
which requires `chunk_size > 0` in Python). -/
def chunksOf (n : Nat) (l : List α) : List (List α) :=
  if l.isEmpty ∨ n = 0 then [] else l.take n :: chunksOf n (l.drop n)
termination_by l.length
decreasing_by
  rename_i h
  simp only [List.isEmpty_eq_true, not_or] at h
  have hl : l.length ≠ 0 := fun hz => h.1 (List.eq_nil_of_length_eq_zero hz)
  simp only [List.length_drop]
  omega

/-- One produced archive: its zip path and its members as
(source path, archive-relative name) pairs, in order. -/
structure ArchiveOut where
  zipName : String
  members : List (String × String)
deriving DecidableEq, Repr

/-- The archive-relative member name: relative to `src_path` when given,
else the bare file name. -/
def arcnameOf (srcPath : Option String) (p : String) : String :=
  match srcPath with
  | some base => relativeTo base p
  | none => lastComponent p

/-- Number the chunks into archives, starting at index `i`. -/
def numberChunks (outputPath pfx : String) (srcPath : Option String) :
    Nat → List (List String) → List ArchiveOut
  | _, [] => []
  | i, c :: cs =>
    ⟨outputPath ++ "/" ++ pfx ++ "_" ++ toString i ++ ".zip",
     c.map fun p => (p, arcnameOf srcPath p)⟩
      :: numberChunks outputPath pfx srcPath (i + 1) cs

/-- `create_archives(files, output_path, chunk_size, prefix, src_path)`:
returns the archives created together with the final value of the caller's
(mutable) `files` list, which the function sorts in place unless it
returned early on an empty list. -/
def create_archives (files : List String) (outputPath : String) (chunkSize : Nat)
    (pfx : String) (srcPath : Option String) : List ArchiveOut × List String :=
  if files.isEmpty then ([], files)
  else
    let sorted := sortPaths files
    (numberChunks outputPath pfx srcPath 1 (chunksOf chunkSize sorted), sorted)

/-! ## Combined mode -/

/-- One record of a combined bundle: the source JAR name and file name
stamped in its header, and its decoded content. -/
structure CombEntry where
  jar : String
  file : String
  content : List Nat
deriving DecidableEq, Repr

/-- A combined bundle file: its path, the content it already had on disk
when it was opened in append mode, and the records appended by this run. -/
structure CombBundle where
  name : String
  pre : List Nat
  entries : List CombEntry
deriving DecidableEq, Repr

/-- Byte-for-byte rendering of one combined record: header write then
content write. -/
def combRecordText (e : CombEntry) : List Nat :=
  strCodes (combinedHeaderStr e.jar e.file) ++ e.content

/-- Byte-for-byte on-disk content of a combined bundle after the run. -/
def combContent (b : CombBundle) : List Nat :=
  b.pre ++ b.entries.flatMap combRecordText

/-- The shared state of the Combined-mode loop: the `open_files` dict
(insertion-ordered association list keyed by extension), the
`created_context_files` set (as an insertion-ordered duplicate-free list),
and the open/close history of handles. -/
structure CombState where
  openFiles : List (String × CombBundle)
  created : List String
  opened : List String
  closed : List String
deriving DecidableEq, Repr

/-- Association-list lookup keyed by `String`. -/
def lookupA {α : Type} : List (String × α) → String → Option α
  | [], _ => none
  | (k, v) :: rest, k' => if k = k' then some v else lookupA rest k'

/-- Append one record to the bundle stored at `ext` (no-op on a missing
key; the loop always opens the key first). -/
def updateB : List (String × CombBundle) → String → CombEntry → List (String × CombBundle)
  | [], _, _ => []
  | (k, b) :: rest, ext, e =>
    if k = ext then (k, { b with entries := b.entries ++ [e] }) :: rest
    else (k, b) :: updateB rest ext e

/-- The name of the single per-key bundle of Combined mode:
`f"{ext[1:] if ext.startswith('.') else ext}_context_1.txt"` under the
output directory. -/
def combName (outputPath ext : String) : String :=
  outputPath ++ "/" ++ stripDot ext ++ "_context_1.txt"

/-- `appendEntry st ext e`: `handle.write(header); handle.write(content)`
on the handle of `ext`. -/
def appendEntry (st : CombState) (ext : String) (e : CombEntry) : CombState :=
  { st with openFiles := updateB st.openFiles ext e }

/-- Open a key's bundle for the first time:
`open(context_filepath, 'a', ...)` (append mode, so pre-existing content
`fs0` of that path is preserved) and `created_context_files.add(...)`
(set insertion). -/
def openCombFile (fs0 : String → List Nat) (outputPath : String) (st : CombState)
    (ext : String) : CombState :=
  let n := combName outputPath ext
  { st with openFiles := st.openFiles ++ [(ext, ⟨n, fs0 n, []⟩)],
            created := if n ∈ st.created then st.created else st.created ++ [n],
            opened := st.opened ++ [n] }

/-- The body of the Combined-mode inner file loop: read (uncaught
`FileNotFoundError` or other exception aborts the run) and append the
record to the key's bundle. -/
def processCombFile (st : CombState) (ext jarName : String) (f : SrcFile) :
    Except CombState CombState :=
  match f.readRes with
  | .bytes bs => .ok (appendEntry st ext ⟨jarName, lastComponent f.path, decodeContent bs⟩)
  | .notFound => .error st
  | .raisesOther => .error st

/-- The `for file_path in sorted(files)` loop of Combined mode. -/
def processCombFiles (jarName ext : String) :
    CombState → List SrcFile → Except CombState CombState
  | st, [] => .ok st
  | st, f :: fs =>
    match processCombFile st ext jarName f with
    | .ok st' => processCombFiles jarName ext st' fs
    | .error e => .error e

/-- One `(ext, files)` group of one JAR in Combined mode: skip binary
keys; lazily open the key's single part-1 bundle; append all files in
sorted order. -/
def processCombGroup (fs0 : String → List Nat) (outputPath jarName : String)
    (st : CombState) (ext : String) (files : List SrcFile) :
    Except CombState CombState :=
  if ext ∈ BINARY_EXTENSIONS then .ok st
  else
    let st1 := if (lookupA st.openFiles ext).isSome then st
               else openCombFile fs0 outputPath st ext
    processCombFiles jarName ext st1 (sortFiles files)

/-- The `for ext, files in current_jar_groups.items()` loop. -/
def processCombGroups (fs0 : String → List Nat) (outputPath jarName : String) :
    CombState → List (String × List SrcFile) → Except CombState CombState
  | st, [] => .ok st
  | st, (ext, files) :: rest =>
    match processCombGroup fs0 outputPath jarName st ext files with
    | .ok st' => processCombGroups fs0 outputPath jarName st' rest
    | .error e => .error e

/-! ## Orchestrator -/

/-- One input archive: its filename stem and full name, whether the
external extraction step succeeded, its scratch directory, and the files
`rglob` enumerates in the extracted tree (in enumeration order). -/
structure JarInput where
  stem : String
  jarName : String
  extractOk : Bool
  tmp : String
  files : List SrcFile
deriving DecidableEq, Repr

instance : DecidableRel (fun a b : JarInput => strLe a.stem b.stem = true) :=
  fun a b => inferInstanceAs (Decidable (strLe a.stem b.stem = true))

/-- `sorted(input_dir.glob('*.jar'))`, modelled as sorting by stem. -/
def sortJars (jars : List JarInput) : List JarInput :=
  jars.insertionSort (fun a b => strLe a.stem b.stem = true)

/-- The `defaultdict(list)` grouping of enumerated files by
classification key, in insertion order. -/
def addToGroup (gs : List (String × List SrcFile)) (ext : String) (f : SrcFile) :
    List (String × List SrcFile) :=
  match gs with
  | [] => [(ext, [f])]
  | (e, fs) :: rest =>
    if e = ext then (e, fs ++ [f]) :: rest else (e, fs) :: addToGroup rest ext f

/-- Group a tree's files by `extOf`, preserving first-seen key order. -/
def groupByExt (files : List SrcFile) : List (String × List SrcFile) :=
  files.foldl (fun gs f => addToGroup gs (extOf f.path) f) []

/-- Combined mode, one JAR: extract (a failure skips the whole body),
group by key, and feed the shared aggregation state. -/
def processJar (fs0 : String → List Nat) (outputPath : String) (st : CombState)
    (j : JarInput) : Except CombState CombState :=
  if j.extractOk then processCombGroups fs0 outputPath j.jarName st (groupByExt j.files)
  else .ok st

/-- The Combined-mode `for jar_path in jar_files` loop. -/
def combGo (fs0 : String → List Nat) (outputPath : String) :
    CombState → List JarInput → Except CombState CombState
  | st, [] => .ok st
  | st, j :: rest =>
    match processJar fs0 outputPath st j with
    | .ok st' => combGo fs0 outputPath st' rest
    | .error e => .error e

/-- The `finally` block: close every handle in `open_files`. -/
def closeAll (st : CombState) : CombState :=
  { st with closed := st.closed ++ st.openFiles.map fun kb => kb.2.name }

/-- The Combined-mode run over a jar list: the jar loop inside
`try`, with the `finally` closing all handles on both the normal and the
exceptional path (the exception then propagates). -/
def combinedRun (fs0 : String → List Nat) (outputPath : String)
    (jars : List JarInput) : Except CombState CombState :=
  match combGo fs0 outputPath ⟨[], [], [], []⟩ jars with
  | .ok st => .ok (closeAll st)
  | .error e => .error (closeAll e)

/-- Combined-mode `main`: shared output area named after the input
directory, the run over the sorted jar list, then one final
`create_archives` over the created context files.  (Python iterates the
`created_context_files` set in unspecified order; `create_archives`
re-sorts, so the archives are the same for any iteration order and the
model passes the insertion-ordered list.) -/
def mainCombined (fs0 : String → List Nat) (scriptDir inputDirName : String)
    (size : Nat) (jars : List JarInput) :
    Except CombState (CombState × List ArchiveOut) :=
  let out := scriptDir ++ "/_decompiled_combined_" ++ inputDirName
  match combinedRun fs0 out (sortJars jars) with
  | .ok st => .ok (st, (create_archives st.created out size "combined_context" none).fst)
  | .error e => .error e

/-- The two Individual-mode output modes. -/
inductive OutMode where
  | direct
  | context
deriving DecidableEq, Repr

/-- The per-jar output of Individual mode. -/
structure IndOutput where
  jarStem : String
  ctxState : Option RunState
  archives : List ArchiveOut
deriving DecidableEq, Repr

/-- Individual mode, one successfully extracted JAR: in context mode,
group, aggregate, then pack the produced context files; in direct mode,
pack the raw extracted files (member names relative to the scratch root). -/
def processIndJar (maxB chunk : Nat) (scriptDir : String) (mode : OutMode)
    (j : JarInput) : Except RunState IndOutput :=
  let outPath := scriptDir ++ "/_decompiled_" ++ j.stem
  match mode with
  | .context =>
    match create_context_files (groupByExt j.files) outPath j.tmp maxB with
    | .ok (st, _) =>
      .ok ⟨j.stem, some st,
           (create_archives st.contextFiles outPath chunk ("context_" ++ j.stem) none).fst⟩
    | .error e => .error e
  | .direct =>
    .ok ⟨j.stem, none,
         (create_archives (j.files.map (·.path)) outPath chunk ("direct_" ++ j.stem)
            (some j.tmp)).fst⟩

/-- The Individual-mode `for jar_path in jar_files` loop: a failed
extraction skips that JAR's aggregation and packing; an uncaught
exception while processing a JAR aborts the run. -/
def indGo (maxB chunk : Nat) (scriptDir : String) (mode : OutMode) :
    List JarInput → Except RunState (List IndOutput)
  | [] => .ok []
  | j :: rest =>
    if j.extractOk then
      match processIndJar maxB chunk scriptDir mode j with
      | .ok o =>
        match indGo maxB chunk scriptDir mode rest with
        | .ok os => .ok (o :: os)
        | .error e => .error e
      | .error e => .error e
    else indGo maxB chunk scriptDir mode rest

/-- Individual-mode `main`: the loop over the sorted jar list. -/
def mainIndividual (maxB chunk : Nat) (scriptDir : String) (mode : OutMode)
    (jars : List JarInput) : Except RunState (List IndOutput) :=
  indGo maxB chunk scriptDir mode (sortJars jars)

/-- The record appended for file `f` of stat size `n` and bytes `bs`. -/
def mkEntry (srcPath : String) (f : SrcFile) (n : Nat) (bs : List Nat) : BundleEntry :=
  ⟨relativeTo srcPath f.path, n, decodeContent bs⟩

/-- Sum of the stat sizes of a bundle's records (the quantity tracked by
`current_size`). -/
def entrySizes (es : List BundleEntry) : Nat := (es.map fun e => e.statSize).sum

/-- The size discipline the code actually guarantees for a produced
bundle: its recorded total is at most the bound, or every record but the
last has stat size 0 and the last alone exceeds the bound. -/
def bundleOk (maxB : Nat) (es : List BundleEntry) : Prop :=
  entrySizes es ≤ maxB ∨
  ∃ pre l, es = pre ++ [l] ∧ (∀ e ∈ pre, e.statSize = 0) ∧ maxB < l.statSize

/-- The size discipline claimed by the spec: at most the bound, except a
bundle containing exactly one file whose size alone exceeds it. -/
def c2Claimed (maxB : Nat) (es : List BundleEntry) : Prop :=
  entrySizes es ≤ maxB ∨ ∃ l, es = [l] ∧ maxB < l.statSize

/-- The bundles closed by a run of `create_context_files`, on both the
normal and the exceptional path. -/
def finishedOf (r : Except RunState (RunState × List (String × List SrcFile))) :
    List BundleFile :=
  match r with
  | .ok (st, _) => st.finished
  | .error st => st.finished

/-- The per-key loop invariant of `create_context_files`: every closed
bundle satisfies `bundleOk`, the open bundle's recorded total is
`current_size` and satisfies `bundleOk`, and `current_size` is 0 whenever
no bundle is open. -/
def ctxInvKey (maxB : Nat) (st : RunState) : Prop :=
  (∀ b ∈ st.finished, bundleOk maxB b.entries) ∧
  (∀ b, st.cur = some b → st.currentSize = entrySizes b.entries ∧ bundleOk maxB b.entries) ∧
  (st.cur = none → st.currentSize = 0)

/-- All closed bundles of a state satisfy `bundleOk`. -/
def finOk (maxB : Nat) (st : RunState) : Prop :=
  ∀ b ∈ st.finished, bundleOk maxB b.entries

/-- The name of the still-open handle of a state, if any. -/
def curNames (st : RunState) : List String :=
  match st.cur with
  | some b => [b.name]
  | none => []

/-- Handle bookkeeping: handles are closed in the order they were opened,
and at most the current bundle's handle is still open. -/
def handleInv (st : RunState) : Prop := st.opened = st.closed ++ curNames st

/-- The final state of a Combined-mode run, on both the normal path and
the exceptional path (the `finally` has run in either case). -/
def combFinal (r : Except CombState CombState) : CombState :=
  match r with
  | .ok st => st
  | .error st => st

/-- The decoded content of a file whose read succeeded (junk otherwise;
only applied to files of successful runs). -/
def contentOfFile (f : SrcFile) : List Nat :=
  match f.readRes with
  | .bytes bs => decodeContent bs
  | _ => []

/-- The record Combined mode appends for file `f` of the jar named
`jarName`: the header stamps the jar name and the file's bare name. -/
def combRecord (jarName : String) (f : SrcFile) : CombEntry :=
  ⟨jarName, lastComponent f.path, contentOfFile f⟩

/-- Fold of `appendEntry` over a record list. -/
def appendEntries (st : CombState) (ext : String) (es : List CombEntry) : CombState :=
  es.foldl (fun s e => appendEntry s ext e) st

/-- The records one `(ext, files)` group contributes to key `k`. -/
def groupRecords1 (jarName ext : String) (files : List SrcFile) (k : String) :
    List CombEntry :=
  if ext = k ∧ ext ∉ BINARY_EXTENSIONS then (sortFiles files).map (combRecord jarName)
  else []

/-- The records one jar's group list contributes to key `k`. -/
def groupRecords (jarName : String) (groups : List (String × List SrcFile)) (k : String) :
    List CombEntry :=
  groups.flatMap fun g => groupRecords1 jarName g.1 g.2 k

/-- Does one jar's group list open/extend key `k`? -/
def groupTouches (groups : List (String × List SrcFile)) (k : String) : Bool :=
  decide (k ∉ BINARY_EXTENSIONS) && groups.any fun g => g.1 == k

/-- The records a whole Combined run appends to key `k`'s single bundle:
the concatenation, over extraction-successful jars in run order, of that
jar's path-sorted files for `k`, each stamped with the jar's name. -/
def runRecords (jars : List JarInput) (k : String) : List CombEntry :=
  (jars.filter fun j => j.extractOk).flatMap fun j =>
    groupRecords j.jarName (groupByExt j.files) k

/-- Does the run open key `k`'s bundle? -/
def runTouches (jars : List JarInput) (k : String) : Bool :=
  (jars.filter fun j => j.extractOk).any fun j => groupTouches (groupByExt j.files) k

/-- The state invariant of the Combined run: the created-file set is
duplicate-free, every open key's part-1 name has been recorded in it,
every recorded name is some key's part-1 name, and every open bundle
carries its key's part-1 name and the pre-existing content of that path
(append mode). -/
def combStInv (fs0 : String → List Nat) (out : String) (st : CombState) : Prop :=
  st.created.Nodup ∧
  (∀ k, (lookupA st.openFiles k).isSome → combName out k ∈ st.created) ∧
  (∀ n ∈ st.created, ∃ k, n = combName out k) ∧
  (∀ k b, lookupA st.openFiles k = some b →
    b.name = combName out k ∧ b.pre = fs0 (combName out k))

/-! # Theorems -/

/-! ## C1: the Individual-mode bundle-splitting rule -/

/-- C1.  In Individual (context) mode, for a file of stat size `n`
processed while a bundle is open, a new bundle part is opened exactly when
`current_size + n > maxBundleBytes` and `current_size > 0`; otherwise the
file is appended to the current bundle (in particular a file larger than
the bound is appended whole to an empty open bundle and never split).  And
for the concrete scenario of three 40 MB files under a 100 MB bound,
bundle part 1 receives files 1 and 2 and bundle part 2 receives file 3. -/
theorem c1_split_rule :
    (∀ (maxB : Nat) (out src stem : String) (st : RunState) (f : SrcFile)
        (n : Nat) (bs : List Nat) (b : BundleFile),
      f.statSize = some n → f.readRes = .bytes bs → st.cur = some b →
      ∃ st', stepFile maxB out src stem st f = .ok st' ∧
        ((st.currentSize + n > maxB ∧ 0 < st.currentSize) →
          st'.partNum = st.partNum + 1 ∧
          st'.finished = st.finished ++ [b] ∧
          st'.cur = some ⟨partName out stem (st.partNum + 1), [mkEntry src f n bs]⟩) ∧
        (¬(st.currentSize + n > maxB ∧ 0 < st.currentSize) →
          st'.partNum = st.partNum ∧
          st'.finished = st.finished ∧
          st'.cur = some ⟨b.name, b.entries ++ [mkEntry src f n bs]⟩)) ∧
    ((create_context_files
        [(".java", [⟨"tmp/f1.java", some 41943040, .bytes []⟩,
                    ⟨"tmp/f2.java", some 41943040, .bytes []⟩,
                    ⟨"tmp/f3.java", some 41943040, .bytes []⟩])]
        "out" "tmp" 104857600).map
          (fun r => r.1.finished.map fun bd => (bd.name, bd.entries.map (·.relPath)))
      = .ok [("out/java_context_1.txt", ["f1.java", "f2.java"]),
             ("out/java_context_2.txt", ["f3.java"])]) := by
  constructor
  · intro maxB out src stem st f n bs b hstat hread hcur
    obtain ⟨p, sz, rr⟩ := f
    dsimp only at hstat hread
    subst hstat hread
    by_cases hC : st.currentSize + n > maxB ∧ 0 < st.currentSize
    · simp only [stepFile, hcur, Option.isSome_some, true_and, if_pos hC, closeCur]
      exact ⟨_, rfl, fun _ => by simp [mkEntry], fun h => absurd hC h⟩
    · simp only [stepFile, hcur, Option.isSome_some, true_and, if_neg hC]
      exact ⟨_, rfl, fun h => absurd h hC, fun _ => by simp [hcur, mkEntry]⟩
  · rfl

/-! ## Path-order lemmas and instances -/

theorem codeLe_total : ∀ a b : List Nat, codeLe a b = true ∨ codeLe b a = true := by
  intro a
  induction a with
  | nil => intro b; left; rfl
  | cons x as ih =>
    intro b
    cases b with
    | nil => right; rfl
    | cons y bs =>
      by_cases hxy : x < y
      · left; simp [codeLe, hxy]
      · by_cases heq : x = y
        · subst heq
          rcases ih bs with h | h
          · left; simp [codeLe, h]
          · right; simp [codeLe, h]
        · right
          have hyx : y < x := by omega
          simp [codeLe, hyx]

theorem codeLe_trans :
    ∀ a b c : List Nat, codeLe a b = true → codeLe b c = true → codeLe a c = true := by
  intro a
  induction a with
  | nil => intro b c _ _; rfl
  | cons x as ih =>
    intro b c hab hbc
    cases b with
    | nil => simp [codeLe] at hab
    | cons y bs =>
      cases c with
      | nil => simp [codeLe] at hbc
      | cons z cs =>
        simp only [codeLe] at hab hbc ⊢
        by_cases hxy : x < y
        · by_cases hyz : y < z
          · have hxz : x < z := by omega
            simp [hxz]
          · by_cases hyz2 : y = z
            · subst hyz2; simp [hxy]
            · simp [hyz, hyz2] at hbc
        · by_cases hxy2 : x = y
          · subst hxy2
            by_cases hyz : x < z
            · simp [hyz]
            · by_cases hyz2 : x = z
              · subst hyz2
                simp only [lt_irrefl, if_false, if_pos rfl] at hab hbc ⊢
                exact ih bs cs hab hbc
              · simp [hyz, hyz2] at hbc
          · simp [hxy, hxy2] at hab

instance : IsTotal String (fun a b => strLe a b = true) :=
  ⟨fun _ _ => codeLe_total _ _⟩

instance : IsTrans String (fun a b => strLe a b = true) :=
  ⟨fun _ _ _ h h' => codeLe_trans _ _ _ h h'⟩

instance : IsTotal SrcFile (fun a b => strLe a.path b.path = true) :=
  ⟨fun _ _ => codeLe_total _ _⟩

instance : IsTrans SrcFile (fun a b => strLe a.path b.path = true) :=
  ⟨fun _ _ _ h h' => codeLe_trans _ _ _ h h'⟩

instance : IsTotal JarInput (fun a b => strLe a.stem b.stem = true) :=
  ⟨fun _ _ => codeLe_total _ _⟩

instance : IsTrans JarInput (fun a b => strLe a.stem b.stem = true) :=
  ⟨fun _ _ _ h h' => codeLe_trans _ _ _ h h'⟩

/-! ## C3: the archive packer partition -/

/-! Chunk lemmas for the archive packer. -/

theorem chunksOf_nil (n : Nat) : chunksOf n ([] : List α) = [] := by
  rw [chunksOf]; simp

theorem chunksOf_cons (n : Nat) (hn : 0 < n) (l : List α) (hl : l ≠ []) :
    chunksOf n l = l.take n :: chunksOf n (l.drop n) := by
  rw [chunksOf]
  have h1 : l.isEmpty = false := by simp [List.isEmpty_iff, hl]
  have h2 : n ≠ 0 := by omega
  simp [h1, h2]

theorem chunksOf_ne_nil (n : Nat) (l : List α) (hl : l ≠ []) (hn : 0 < n) :
    chunksOf n l ≠ [] := by
  rw [chunksOf_cons n hn l hl]
  simp

theorem chunksOf_flatten_aux (n : Nat) (hn : 0 < n) :
    ∀ (k : Nat) (l : List α), l.length ≤ k → (chunksOf n l).flatten = l := by
  intro k
  induction k with
  | zero =>
    intro l hl
    have : l = [] := List.eq_nil_of_length_eq_zero (Nat.le_zero.mp hl)
    subst this
    simp [chunksOf_nil]
  | succ k ih =>
    intro l hl
    by_cases hnil : l = []
    · subst hnil; simp [chunksOf_nil]
    · have hlen : 0 < l.length := List.length_pos.mpr hnil
      rw [chunksOf_cons n hn l hnil, List.flatten_cons,
        ih (l.drop n) (by simp only [List.length_drop]; omega), List.take_append_drop]

theorem chunksOf_flatten (n : Nat) (hn : 0 < n) (l : List α) :
    (chunksOf n l).flatten = l :=
  chunksOf_flatten_aux n hn l.length l le_rfl

theorem chunksOf_length_aux (n : Nat) (hn : 0 < n) :
    ∀ (k : Nat) (l : List α), l.length ≤ k →
      (chunksOf n l).length = (l.length + n - 1) / n := by
  intro k
  induction k with
  | zero =>
    intro l hl
    have : l = [] := List.eq_nil_of_length_eq_zero (Nat.le_zero.mp hl)
    subst this
    rw [chunksOf_nil]
    simp only [List.length_nil]
    rw [Nat.div_eq_of_lt (by omega)]
  | succ k ih =>
    intro l hl
    by_cases hnil : l = []
    · subst hnil
      rw [chunksOf_nil]
      simp only [List.length_nil]
      rw [Nat.div_eq_of_lt (by omega)]
    · have hlen : 0 < l.length := List.length_pos.mpr hnil
      rw [chunksOf_cons n hn l hnil]
      simp only [List.length_cons,
        ih (l.drop n) (by simp only [List.length_drop]; omega), List.length_drop]
      rcases le_or_lt l.length n with hle | hlt
      · have hdz : l.length - n = 0 := by omega
        have e1 : (0 + n - 1) / n = 0 := Nat.div_eq_of_lt (by omega)
        have e2 : (l.length + n - 1) / n = 1 :=
          @Nat.div_eq_of_lt_le 1 n (l.length + n - 1) (by omega) (by omega)
        rw [hdz, e1, e2]
      · have harith : l.length + n - 1 = ((l.length - n) + n - 1) + n := by omega
        rw [harith, Nat.add_div_right _ hn]

theorem chunksOf_length (n : Nat) (hn : 0 < n) (l : List α) :
    (chunksOf n l).length = (l.length + n - 1) / n :=
  chunksOf_length_aux n hn l.length l le_rfl

theorem chunksOf_mem_aux (n : Nat) (hn : 0 < n) :
    ∀ (k : Nat) (l : List α), l.length ≤ k →
      ∀ c ∈ chunksOf n l, c.length ≤ n := by
  intro k
  induction k with
  | zero =>
    intro l hl c hc
    have : l = [] := List.eq_nil_of_length_eq_zero (Nat.le_zero.mp hl)
    subst this
    rw [chunksOf_nil] at hc
    exact absurd hc (List.not_mem_nil c)
  | succ k ih =>
    intro l hl c hc
    by_cases hnil : l = []
    · subst hnil
      rw [chunksOf_nil] at hc
      exact absurd hc (List.not_mem_nil c)
    · have hlen : 0 < l.length := List.length_pos.mpr hnil
      rw [chunksOf_cons n hn l hnil, List.mem_cons] at hc
      rcases hc with hc | hc
      · subst hc
        simp [List.length_take]
      · exact ih (l.drop n) (by simp only [List.length_drop]; omega) c hc

theorem chunksOf_mem (n : Nat) (hn : 0 < n) (l : List α) :
    ∀ c ∈ chunksOf n l, c.length ≤ n :=
  chunksOf_mem_aux n hn l.length l le_rfl

theorem chunksOf_dropLast_aux (n : Nat) (hn : 0 < n) :
    ∀ (k : Nat) (l : List α), l.length ≤ k →
      ∀ c ∈ (chunksOf n l).dropLast, c.length = n := by
  intro k
  induction k with
  | zero =>
    intro l hl c hc
    have : l = [] := List.eq_nil_of_length_eq_zero (Nat.le_zero.mp hl)
    subst this
    rw [chunksOf_nil] at hc
    exact absurd hc (List.not_mem_nil c)
  | succ k ih =>
    intro l hl c hc
    by_cases hnil : l = []
    · subst hnil
      rw [chunksOf_nil] at hc
      exact absurd hc (List.not_mem_nil c)
    · have hlen : 0 < l.length := List.length_pos.mpr hnil
      rw [chunksOf_cons n hn l hnil] at hc
      cases hrest : chunksOf n (l.drop n) with
      | nil => rw [hrest] at hc; simp at hc
      | cons r rs =>
        rw [hrest, List.dropLast_cons₂, List.mem_cons] at hc
        have hdrop : l.drop n ≠ [] := by
          intro hd
          rw [hd, chunksOf_nil] at hrest
          exact List.noConfusion hrest
        have hlong : n < l.length := by
          by_contra hno
          exact hdrop (List.drop_eq_nil_of_le (by omega))
        rcases hc with hc | hc
        · subst hc
          simp only [List.length_take]
          omega
        · rw [← hrest] at hc
          exact ih (l.drop n) (by simp only [List.length_drop]; omega) c hc

theorem chunksOf_dropLast (n : Nat) (hn : 0 < n) (l : List α) :
    ∀ c ∈ (chunksOf n l).dropLast, c.length = n :=
  chunksOf_dropLast_aux n hn l.length l le_rfl

theorem numberChunks_length (out pfx : String) (sp : Option String) :
    ∀ (i : Nat) (cs : List (List String)),
      (numberChunks out pfx sp i cs).length = cs.length := by
  intro i cs
  induction cs generalizing i with
  | nil => rfl
  | cons c cs ih => simp [numberChunks, ih]

theorem numberChunks_members (out pfx : String) (sp : Option String) :
    ∀ (i : Nat) (cs : List (List String)),
      (numberChunks out pfx sp i cs).map (fun a => a.members.map Prod.fst) = cs := by
  intro i cs
  induction cs generalizing i with
  | nil => rfl
  | cons c cs ih =>
    simp only [numberChunks, List.map_cons, ih]
    congr 1
    induction c with
    | nil => rfl
    | cons p ps ihc => simp only [List.map_cons, ihc]

theorem numberChunks_names (out pfx : String) (sp : Option String) :
    ∀ (i : Nat) (cs : List (List String)),
      (numberChunks out pfx sp i cs).map (fun a => a.zipName)
        = (List.range' i cs.length).map
            (fun k => out ++ "/" ++ pfx ++ "_" ++ toString k ++ ".zip") := by
  intro i cs
  induction cs generalizing i with
  | nil => rfl
  | cons c cs ih =>
    simp only [numberChunks, List.map_cons, List.length_cons, List.range'_succ, ih]

theorem numberChunks_mem (out pfx : String) (sp : Option String) :
    ∀ (i : Nat) (cs : List (List String)) (a : ArchiveOut),
      a ∈ numberChunks out pfx sp i cs →
      ∃ c ∈ cs, a.members = c.map (fun p => (p, arcnameOf sp p)) := by
  intro i cs
  induction cs generalizing i with
  | nil => intro a ha; exact absurd ha (List.not_mem_nil a)
  | cons c cs ih =>
    intro a ha
    rw [numberChunks, List.mem_cons] at ha
    rcases ha with ha | ha
    · exact ⟨c, List.mem_cons_self c cs, by rw [ha]⟩
    · obtain ⟨c', hc', he⟩ := ih (i + 1) a ha
      exact ⟨c', List.mem_cons_of_mem c hc', he⟩

theorem numberChunks_dropLast (out pfx : String) (sp : Option String) :
    ∀ (i : Nat) (cs : List (List String)),
      (numberChunks out pfx sp i cs).dropLast = numberChunks out pfx sp i cs.dropLast := by
  intro i cs
  induction cs generalizing i with
  | nil => rfl
  | cons c cs ih =>
    cases cs with
    | nil => rfl
    | cons c2 cs2 =>
      rw [numberChunks, numberChunks, List.dropLast_cons₂, ← numberChunks, ih,
        List.dropLast_cons₂, numberChunks]

/-- C3.  For a non-empty file list and positive chunk size, the packer
creates exactly `⌈len/chunkSize⌉` archives, whose member lists are the
consecutive chunks of the path-sorted input (all of size `chunkSize`
except possibly the last, none exceeding it), covering every input file
exactly once, named `<prefix>_<i>.zip` with `i` starting at 1, each member
stored under its archive-relative name; an empty list produces nothing. -/
theorem c3_pack_partition :
    (∀ (files : List String) (out : String) (c : Nat) (pfx : String) (sp : Option String),
      files ≠ [] → 0 < c →
      (create_archives files out c pfx sp).1.length = (files.length + c - 1) / c ∧
      ((create_archives files out c pfx sp).1.map fun a => a.members.map Prod.fst).flatten
        = sortPaths files ∧
      (sortPaths files).Perm files ∧
      List.Sorted (fun a b => strLe a b = true) (sortPaths files) ∧
      (∀ a ∈ (create_archives files out c pfx sp).1, a.members.length ≤ c) ∧
      (∀ a ∈ (create_archives files out c pfx sp).1.dropLast, a.members.length = c) ∧
      (create_archives files out c pfx sp).1.map (fun a => a.zipName)
        = (List.range' 1 ((files.length + c - 1) / c)).map
            (fun k => out ++ "/" ++ pfx ++ "_" ++ toString k ++ ".zip") ∧
      (∀ a ∈ (create_archives files out c pfx sp).1, ∀ m ∈ a.members,
        m.2 = arcnameOf sp m.1)) ∧
    (∀ (out : String) (c : Nat) (pfx : String) (sp : Option String),
      (create_archives [] out c pfx sp).1 = []) := by
  constructor
  · intro files out c pfx sp hne hc
    have hni : files.isEmpty = false := by simp [List.isEmpty_iff, hne]
    have hperm : (sortPaths files).Perm files := List.perm_insertionSort _ files
    have hslen : (sortPaths files).length = files.length := hperm.length_eq
    simp only [create_archives, hni, Bool.false_eq_true, if_false]
    refine ⟨?_, ?_, hperm, List.sorted_insertionSort _ files, ?_, ?_, ?_, ?_⟩
    · rw [numberChunks_length, chunksOf_length c hc, hslen]
    · rw [numberChunks_members, chunksOf_flatten c hc]
    · intro a ha
      obtain ⟨ch, hch, he⟩ := numberChunks_mem out pfx sp 1 _ a ha
      rw [he, List.length_map]
      exact chunksOf_mem c hc _ ch hch
    · intro a ha
      rw [numberChunks_dropLast] at ha
      obtain ⟨ch, hch, he⟩ := numberChunks_mem out pfx sp 1 _ a ha
      rw [he, List.length_map]
      exact chunksOf_dropLast c hc _ ch hch
    · rw [numberChunks_names, chunksOf_length c hc, hslen]
    · intro a ha m hm
      obtain ⟨ch, hch, he⟩ := numberChunks_mem out pfx sp 1 _ a ha
      rw [he, List.mem_map] at hm
      obtain ⟨p, hp, hpe⟩ := hm
      rw [← hpe]
  · intro out c pfx sp
    rfl

/-- Witness for C3 at `files = ["b.txt", "a.txt", "c.txt"]`, `chunkSize = 2`. -/
theorem c3_pack_partition_witness :
    (["b.txt", "a.txt", "c.txt"] : List String) ≠ [] ∧ 0 < 2 ∧
    ((create_archives ["b.txt", "a.txt", "c.txt"] "out" 2 "context_x" none).1.length
        = (([ "b.txt", "a.txt", "c.txt"] : List String).length + 2 - 1) / 2 ∧
      ((create_archives ["b.txt", "a.txt", "c.txt"] "out" 2 "context_x" none).1.map
          fun a => a.members.map Prod.fst).flatten
        = sortPaths ["b.txt", "a.txt", "c.txt"] ∧
      (sortPaths ["b.txt", "a.txt", "c.txt"]).Perm ["b.txt", "a.txt", "c.txt"] ∧
      List.Sorted (fun a b => strLe a b = true) (sortPaths ["b.txt", "a.txt", "c.txt"]) ∧
      (∀ a ∈ (create_archives ["b.txt", "a.txt", "c.txt"] "out" 2 "context_x" none).1,
        a.members.length ≤ 2) ∧
      (∀ a ∈ (create_archives ["b.txt", "a.txt", "c.txt"] "out" 2 "context_x" none).1.dropLast,
        a.members.length = 2) ∧
      (create_archives ["b.txt", "a.txt", "c.txt"] "out" 2 "context_x" none).1.map
          (fun a => a.zipName)
        = (List.range' 1 ((([ "b.txt", "a.txt", "c.txt"] : List String).length + 2 - 1) / 2)).map
            (fun k => "out" ++ "/" ++ "context_x" ++ "_" ++ toString k ++ ".zip") ∧
      (∀ a ∈ (create_archives ["b.txt", "a.txt", "c.txt"] "out" 2 "context_x" none).1,
        ∀ m ∈ a.members, m.2 = arcnameOf none m.1)) :=
  ⟨by decide, by decide,
   c3_pack_partition.1 ["b.txt", "a.txt", "c.txt"] "out" 2 "context_x" none
     (by decide) (by decide)⟩

/-- Witness for C1: a file of size 3 appended to an open bundle of
running size 5 under a 10-byte bound (no split). -/
theorem c1_split_rule_witness :
    ∃ st', stepFile 10 "out" "tmp" "java_context"
        ⟨["out/java_context_1.txt"], [], ["out/java_context_1.txt"], [],
         some ⟨"out/java_context_1.txt", []⟩, 1, 5⟩
        ⟨"tmp/a.java", some 3, ReadOutcome.bytes [97]⟩ = .ok st' ∧
      ((5 + 3 > 10 ∧ 0 < 5) →
        st'.partNum = 1 + 1 ∧
        st'.finished = [] ++ [⟨"out/java_context_1.txt", []⟩] ∧
        st'.cur = some ⟨partName "out" "java_context" (1 + 1),
                        [mkEntry "tmp" ⟨"tmp/a.java", some 3, ReadOutcome.bytes [97]⟩ 3 [97]]⟩) ∧
      (¬(5 + 3 > 10 ∧ 0 < 5) →
        st'.partNum = 1 ∧ st'.finished = [] ∧
        st'.cur = some ⟨"out/java_context_1.txt",
                        [] ++ [mkEntry "tmp" ⟨"tmp/a.java", some 3, ReadOutcome.bytes [97]⟩ 3 [97]]⟩) :=
  c1_split_rule.1 10 "out" "tmp" "java_context"
    ⟨["out/java_context_1.txt"], [], ["out/java_context_1.txt"], [],
     some ⟨"out/java_context_1.txt", []⟩, 1, 5⟩
    ⟨"tmp/a.java", some 3, ReadOutcome.bytes [97]⟩ 3 [97]
    ⟨"out/java_context_1.txt", []⟩ rfl rfl rfl

/-! ## C6: the encoding fallback -/

/-- C6.  For a file whose bytes fail strict UTF-8 decoding, the read
block falls back to the total latin-1 decode (every byte kept, nothing
dropped) and the file's record is still appended: in Individual mode the
step succeeds with the latin-1 content as the last record of the open
bundle, and in Combined mode the step succeeds appending the latin-1
content; no encoding error ever aborts processing. -/
theorem c6_encoding_fallback :
    ∀ (bs : List Nat) (maxB : Nat) (out src stem : String) (st : RunState)
      (f : SrcFile) (n : Nat) (cst : CombState) (ext jarName : String),
      utf8Decode bs = none → f.statSize = some n → f.readRes = .bytes bs →
      decodeContent bs = latin1Decode bs ∧
      (∃ st' b, stepFile maxB out src stem st f = .ok st' ∧ st'.cur = some b ∧
        b.entries.getLast? = some ⟨relativeTo src f.path, n, latin1Decode bs⟩) ∧
      processCombFile cst ext jarName f =
        .ok (appendEntry cst ext ⟨jarName, lastComponent f.path, latin1Decode bs⟩) := by
  intro bs maxB out src stem st f n cst ext jarName hdec hstat hread
  have hd : decodeContent bs = latin1Decode bs := by
    unfold decodeContent
    rw [hdec]
  obtain ⟨p, sz, rr⟩ := f
  dsimp only at hstat hread
  subst hstat hread
  refine ⟨hd, ?_, ?_⟩
  · cases hcur : st.cur with
    | none =>
      simp only [stepFile, hcur, Option.isSome_none, Bool.false_eq_true, false_and, if_false,
        Option.map_some, List.nil_append]
      exact ⟨_, _, rfl, rfl, by simp [hd]⟩
    | some b0 =>
      by_cases hC : st.currentSize + n > maxB ∧ 0 < st.currentSize
      · simp only [stepFile, hcur, Option.isSome_some, true_and, if_pos hC, closeCur,
          Option.map_some, List.nil_append]
        exact ⟨_, _, rfl, rfl, by simp [hd]⟩
      · simp only [stepFile, hcur, Option.isSome_some, true_and, if_neg hC,
          Option.map_some, List.nil_append]
        exact ⟨_, _, rfl, rfl, by simp [hd, List.getLast?_concat]⟩
  · simp only [processCombFile, hd]

/-- Witness for C6 at the invalid UTF-8 byte string `[0xFF]`. -/
theorem c6_encoding_fallback_witness :
    utf8Decode [255] = none ∧
    ((⟨"tmp/a.bin2", some 1, ReadOutcome.bytes [255]⟩ : SrcFile).statSize = some 1) ∧
    (decodeContent [255] = latin1Decode [255] ∧
      (∃ st' b, stepFile 10 "out" "tmp" "bin2_context" initState
          ⟨"tmp/a.bin2", some 1, ReadOutcome.bytes [255]⟩ = .ok st' ∧ st'.cur = some b ∧
        b.entries.getLast? = some ⟨relativeTo "tmp" "tmp/a.bin2", 1, latin1Decode [255]⟩) ∧
      processCombFile ⟨[(".bin2", ⟨"out/bin2_context_1.txt", [], []⟩)], [], [], []⟩
          ".bin2" "A.jar" ⟨"tmp/a.bin2", some 1, ReadOutcome.bytes [255]⟩ =
        .ok (appendEntry ⟨[(".bin2", ⟨"out/bin2_context_1.txt", [], []⟩)], [], [], []⟩
          ".bin2" ⟨"A.jar", lastComponent "tmp/a.bin2", latin1Decode [255]⟩)) :=
  ⟨rfl, rfl,
   c6_encoding_fallback [255] 10 "out" "tmp" "bin2_context" initState
     ⟨"tmp/a.bin2", some 1, ReadOutcome.bytes [255]⟩ 1
     ⟨[(".bin2", ⟨"out/bin2_context_1.txt", [], []⟩)], [], [], []⟩ ".bin2" "A.jar"
     rfl rfl rfl⟩

/-! ## C7: files that disappear between enumeration and read -/

/-- Counterexample to C7 as stated: in Combined mode a file whose read
fails with `FileNotFoundError` is not skipped — the exception is uncaught
and the run aborts (the result is an error, with only the `finally`
cleanup having run). -/
theorem c7_counterexample :
    combinedRun (fun _ => []) "out"
        [⟨"A", "A.jar", true, "tmpA", [⟨"tmpA/x.java", some 5, ReadOutcome.notFound⟩]⟩]
      = Except.error ⟨[(".java", ⟨"out/java_context_1.txt", [], []⟩)],
          ["out/java_context_1.txt"], ["out/java_context_1.txt"],
          ["out/java_context_1.txt"]⟩ := rfl

/-- C7 as amended: only Individual mode skips a disappearing file, and
only at the `stat` call: a file whose `stat` fails with
`FileNotFoundError` leaves the state unchanged and the remaining files
are processed as if it were absent. -/
theorem c7_stat_skip :
    (∀ (maxB : Nat) (out src stem : String) (st : RunState) (p : String) (rr : ReadOutcome),
      stepFile maxB out src stem st ⟨p, none, rr⟩ = .ok st) ∧
    (∀ (maxB : Nat) (out src stem : String) (st : RunState)
        (fs1 fs2 : List SrcFile) (p : String) (rr : ReadOutcome),
      processFiles maxB out src stem st (fs1 ++ ⟨p, none, rr⟩ :: fs2) =
        processFiles maxB out src stem st (fs1 ++ fs2)) := by
  constructor
  · intro maxB out src stem st p rr
    rfl
  · intro maxB out src stem st fs1 fs2 p rr
    induction fs1 generalizing st with
    | nil => rfl
    | cons g gs ih =>
      simp only [List.cons_append, processFiles]
      cases stepFile maxB out src stem st g with
      | ok st' => exact ih st'
      | error e => rfl

/-! ## C8: extraction failures skip one InputUnit only -/

theorem indGo_filter (maxB chunk : Nat) (sd : String) (mode : OutMode) :
    ∀ jars : List JarInput,
      indGo maxB chunk sd mode jars
        = indGo maxB chunk sd mode (jars.filter fun j => j.extractOk) := by
  intro jars
  induction jars with
  | nil => rfl
  | cons j rest ih =>
    by_cases h : j.extractOk
    · simp only [indGo, h, if_true, ih, List.filter_cons_of_pos h]
    · have hb : j.extractOk = false := by
        revert h
        cases j.extractOk <;> simp
      simp only [indGo, hb, Bool.false_eq_true, if_false, ih, List.filter_cons_of_neg,
        List.filter_cons]

theorem combGo_filter (fs0 : String → List Nat) (out : String) :
    ∀ (jars : List JarInput) (st : CombState),
      combGo fs0 out st jars = combGo fs0 out st (jars.filter fun j => j.extractOk) := by
  intro jars
  induction jars with
  | nil => intro st; rfl
  | cons j rest ih =>
    intro st
    by_cases h : j.extractOk
    · simp only [combGo, List.filter_cons_of_pos h]
      cases processJar fs0 out st j with
      | ok st' => exact ih st'
      | error e => rfl
    · have hb : j.extractOk = false := by
        revert h
        cases j.extractOk <;> simp
      have hpj : processJar fs0 out st j = .ok st := by
        simp [processJar, hb]
      simp only [combGo, hpj, ih st, List.filter_cons]
      rw [if_neg (by simp [hb])]

/-- C8.  An InputUnit whose extraction fails contributes nothing and is
simply skipped: both orchestrator loops compute exactly what they compute
on the extraction-successful sublist (so a failure is never fatal and
processing proceeds with the next InputUnit, in sorted order). -/
theorem c8_extract_failure_skips :
    (∀ (maxB chunk : Nat) (sd : String) (mode : OutMode) (jars : List JarInput),
      mainIndividual maxB chunk sd mode jars
        = indGo maxB chunk sd mode ((sortJars jars).filter fun j => j.extractOk)) ∧
    (∀ (maxB chunk : Nat) (sd : String) (mode : OutMode) (jars : List JarInput),
      indGo maxB chunk sd mode jars
        = indGo maxB chunk sd mode (jars.filter fun j => j.extractOk)) ∧
    (∀ (fs0 : String → List Nat) (out : String) (jars : List JarInput),
      combinedRun fs0 out jars = combinedRun fs0 out (jars.filter fun j => j.extractOk)) := by
  refine ⟨?_, ?_, ?_⟩
  · intro maxB chunk sd mode jars
    exact indGo_filter maxB chunk sd mode (sortJars jars)
  · intro maxB chunk sd mode jars
    exact indGo_filter maxB chunk sd mode jars
  · intro fs0 out jars
    unfold combinedRun
    rw [combGo_filter fs0 out jars]

/-! ## C9: in-place sorting of the callers' lists -/

/-- Counterexample to C9 as stated: the aggregator does not sort the
lists of binary keys — their `files.sort()` line is skipped by the
`continue`, so the caller's list for `.png` is returned unchanged and
unsorted. -/
theorem c9_counterexample :
    create_context_files
        [(".png", [⟨"tmp/b.png", some 1, ReadOutcome.bytes []⟩,
                   ⟨"tmp/a.png", some 1, ReadOutcome.bytes []⟩])] "out" "tmp" 10
      = .ok (initState,
          [(".png", [⟨"tmp/b.png", some 1, ReadOutcome.bytes []⟩,
                     ⟨"tmp/a.png", some 1, ReadOutcome.bytes []⟩])]) ∧
    ([(⟨"tmp/b.png", some 1, ReadOutcome.bytes []⟩ : SrcFile),
      ⟨"tmp/a.png", some 1, ReadOutcome.bytes []⟩]
        ≠ sortFiles [⟨"tmp/b.png", some 1, ReadOutcome.bytes []⟩,
                     ⟨"tmp/a.png", some 1, ReadOutcome.bytes []⟩]) :=
  ⟨rfl, by decide⟩

/-- The final value of each key's list produced by one aggregation call. -/
theorem ctxGo_groupedAfter (maxB : Nat) (out src : String) :
    ∀ (grouped : List (String × List SrcFile)) (st st' : RunState)
      (ga : List (String × List SrcFile)),
      ctxGo maxB out src st grouped = .ok (st', ga) →
      ga = grouped.map fun g =>
        (g.1, if g.1 ∈ BINARY_EXTENSIONS then g.2 else sortFiles g.2) := by
  intro grouped
  induction grouped with
  | nil =>
    intro st st' ga h
    simp only [ctxGo, Except.ok.injEq, Prod.mk.injEq] at h
    rw [← h.2]
    rfl
  | cons g rest ih =>
    intro st st' ga h
    obtain ⟨ext, files⟩ := g
    by_cases hbin : ext ∈ BINARY_EXTENSIONS
    · rw [ctxGo, if_pos hbin] at h
      cases hgo : ctxGo maxB out src st rest with
      | ok r =>
        obtain ⟨st'', ga'⟩ := r
        rw [hgo] at h
        simp only [Except.ok.injEq, Prod.mk.injEq] at h
        rw [← h.2, List.map_cons, if_pos hbin]
        rw [ih st st'' ga' hgo]
      | error e => rw [hgo] at h; exact absurd h (by simp)
    · rw [ctxGo, if_neg hbin] at h
      cases hpk : processKey maxB out src st ext files with
      | ok st1 =>
        rw [hpk] at h
        dsimp only at h
        cases hgo : ctxGo maxB out src st1 rest with
        | ok r =>
          obtain ⟨st'', ga'⟩ := r
          rw [hgo] at h
          simp only [Except.ok.injEq, Prod.mk.injEq] at h
          rw [← h.2, List.map_cons, if_neg hbin]
          rw [ih st1 st'' ga' hgo]
        | error e => rw [hgo] at h; exact absurd h (by simp)
      | error e => rw [hpk] at h; exact absurd h (by simp)

/-- C9 as amended: the packer always leaves the caller's list sorted (a
sorted permutation of its input); the aggregator does so only for
non-binary keys, returning binary keys' lists untouched. -/
theorem c9_inplace_sort :
    (∀ (files : List String) (out : String) (c : Nat) (pfx : String) (sp : Option String),
      (create_archives files out c pfx sp).2 = sortPaths files ∧
      (create_archives files out c pfx sp).2.Perm files ∧
      List.Sorted (fun a b => strLe a b = true) (create_archives files out c pfx sp).2) ∧
    (∀ g : String × List SrcFile,
      (if g.1 ∈ BINARY_EXTENSIONS then g.2 else sortFiles g.2).Perm g.2) ∧
    (∀ (grouped : List (String × List SrcFile)) (out src : String) (maxB : Nat)
        (st : RunState) (ga : List (String × List SrcFile)),
      create_context_files grouped out src maxB = .ok (st, ga) →
      ga = (grouped.map fun g =>
        (g.1, if g.1 ∈ BINARY_EXTENSIONS then g.2 else sortFiles g.2)) ∧
      (∀ g ∈ ga, g.1 ∉ BINARY_EXTENSIONS →
        List.Sorted (fun a b : SrcFile => strLe a.path b.path = true) g.2)) := by
  refine ⟨?_, ?_, ?_⟩
  · intro files out c pfx sp
    by_cases hne : files = []
    · subst hne
      exact ⟨rfl, List.Perm.refl _, List.sorted_nil⟩
    · have hni : files.isEmpty = false := by simp [List.isEmpty_iff, hne]
      simp only [create_archives, hni, Bool.false_eq_true, if_false]
      exact ⟨trivial, List.perm_insertionSort _ files, List.sorted_insertionSort _ files⟩
  · intro g
    by_cases hbin : g.1 ∈ BINARY_EXTENSIONS
    · rw [if_pos hbin]
    · rw [if_neg hbin]
      exact List.perm_insertionSort _ g.2
  · intro grouped out src maxB st ga h
    have hga := ctxGo_groupedAfter maxB out src grouped initState st ga h
    refine ⟨hga, ?_⟩
    intro g hg hnb
    rw [hga, List.mem_map] at hg
    obtain ⟨g0, hg0, hge⟩ := hg
    have hnb0 : g0.1 ∉ BINARY_EXTENSIONS := by
      intro hc
      rw [← hge] at hnb
      exact hnb hc
    rw [← hge]
    simp only [if_neg hnb0]
    exact List.sorted_insertionSort _ g0.2

/-- Witness for C9 (amended), at a call with one non-binary key whose
list arrives unsorted. -/
theorem c9_inplace_sort_witness :
    create_context_files
        [(".txt", [⟨"tmp/b.txt", some 1, ReadOutcome.bytes []⟩,
                   ⟨"tmp/a.txt", some 1, ReadOutcome.bytes []⟩])] "out" "tmp" 10
      = .ok (⟨["out/txt_context_1.txt"], ["out/txt_context_1.txt"], ["out/txt_context_1.txt"],
              [⟨"out/txt_context_1.txt", [⟨"a.txt", 1, []⟩, ⟨"b.txt", 1, []⟩]⟩],
              none, 1, 2⟩,
             [(".txt", [⟨"tmp/a.txt", some 1, ReadOutcome.bytes []⟩,
                        ⟨"tmp/b.txt", some 1, ReadOutcome.bytes []⟩])]) ∧
    ([(".txt", [⟨"tmp/a.txt", some 1, ReadOutcome.bytes []⟩,
                ⟨"tmp/b.txt", some 1, ReadOutcome.bytes []⟩])]
        = ([(".txt", [⟨"tmp/b.txt", some 1, ReadOutcome.bytes []⟩,
                      ⟨"tmp/a.txt", some 1, ReadOutcome.bytes []⟩])].map fun g =>
            ((g : String × List SrcFile).1,
              if g.1 ∈ BINARY_EXTENSIONS then g.2 else sortFiles g.2)) ∧
      (∀ g ∈ [(".txt", [(⟨"tmp/a.txt", some 1, ReadOutcome.bytes []⟩ : SrcFile),
                        ⟨"tmp/b.txt", some 1, ReadOutcome.bytes []⟩])],
        g.1 ∉ BINARY_EXTENSIONS →
        List.Sorted (fun a b : SrcFile => strLe a.path b.path = true) g.2)) :=
  ⟨rfl,
   c9_inplace_sort.2.2
     [(".txt", [⟨"tmp/b.txt", some 1, ReadOutcome.bytes []⟩,
                ⟨"tmp/a.txt", some 1, ReadOutcome.bytes []⟩])] "out" "tmp" 10
     ⟨["out/txt_context_1.txt"], ["out/txt_context_1.txt"], ["out/txt_context_1.txt"],
      [⟨"out/txt_context_1.txt", [⟨"a.txt", 1, []⟩, ⟨"b.txt", 1, []⟩]⟩], none, 1, 2⟩
     [(".txt", [⟨"tmp/a.txt", some 1, ReadOutcome.bytes []⟩,
                ⟨"tmp/b.txt", some 1, ReadOutcome.bytes []⟩])] rfl⟩

/-! ## C2: the bundle size bound -/

theorem entrySizes_append (es : List BundleEntry) (e : BundleEntry) :
    entrySizes (es ++ [e]) = entrySizes es + e.statSize := by
  simp [entrySizes]

theorem bundleOk_append (maxB : Nat) (es : List BundleEntry) (e : BundleEntry)
    (hsz : entrySizes es = 0 ∨ entrySizes es + e.statSize ≤ maxB) :
    bundleOk maxB (es ++ [e]) := by
  rcases hsz with hz | hle
  · by_cases hbig : maxB < e.statSize
    · right
      refine ⟨es, e, rfl, ?_, hbig⟩
      intro x hx
      exact List.sum_eq_zero_iff.mp hz x.statSize (List.mem_map_of_mem _ hx)
    · left
      rw [entrySizes_append, hz]
      omega
  · left
    rw [entrySizes_append]
    exact hle

theorem stepFile_inv_ok (maxB : Nat) (out src stem : String) (st st' : RunState)
    (f : SrcFile) (hInv : ctxInvKey maxB st)
    (h : stepFile maxB out src stem st f = .ok st') : ctxInvKey maxB st' := by
  obtain ⟨h1, h2, h3⟩ := hInv
  obtain ⟨p, sz, rr⟩ := f
  cases sz with
  | none =>
    cases h
    exact ⟨h1, h2, h3⟩
  | some n =>
    cases rr with
    | notFound => simp [stepFile] at h
    | raisesOther => simp [stepFile] at h
    | bytes bs =>
      cases hcur : st.cur with
      | none =>
        have hcs : st.currentSize = 0 := h3 hcur
        simp only [stepFile, hcur, Option.isSome_none, Bool.false_eq_true, false_and,
          if_false, Option.map_some, List.nil_append, Except.ok.injEq] at h
        subst h
        refine ⟨h1, ?_, ?_⟩
        · intro b hb
          dsimp only at hb
          injection hb with hb
          subst hb
          refine ⟨?_, ?_⟩
          · dsimp only
            simp [entrySizes, hcs]
          · exact bundleOk_append maxB [] _ (Or.inl rfl)
        · intro hnone
          dsimp only at hnone
          exact absurd hnone (by simp)
      | some b0 =>
        by_cases hC : st.currentSize + n > maxB ∧ 0 < st.currentSize
        · simp only [stepFile, hcur, Option.isSome_some, true_and, if_pos hC, closeCur,
            Option.map_some, List.nil_append, Except.ok.injEq] at h
          subst h
          refine ⟨?_, ?_, ?_⟩
          · intro b hb
            dsimp only at hb
            rcases List.mem_append.mp hb with hb | hb
            · exact h1 b hb
            · rw [List.mem_singleton.mp hb]
              exact (h2 b0 hcur).2
          · intro b hb
            dsimp only at hb
            injection hb with hb
            subst hb
            refine ⟨?_, ?_⟩
            · dsimp only
              simp [entrySizes]
            · exact bundleOk_append maxB [] _ (Or.inl rfl)
          · intro hnone
            dsimp only at hnone
            exact absurd hnone (by simp)
        · simp only [stepFile, hcur, Option.isSome_some, true_and, if_neg hC,
            Option.map_some, Except.ok.injEq] at h
          subst h
          have hcs : st.currentSize = entrySizes b0.entries := (h2 b0 hcur).1
          refine ⟨h1, ?_, ?_⟩
          · intro b hb
            dsimp only at hb
            injection hb with hb
            subst hb
            refine ⟨?_, ?_⟩
            · dsimp only
              rw [entrySizes_append, hcs]
            · refine bundleOk_append maxB b0.entries _ ?_
              dsimp only
              rcases not_and_or.mp hC with hA | hB
              · right
                rw [← hcs]
                omega
              · left
                rw [← hcs]
                omega
          · intro hnone
            dsimp only at hnone
            exact absurd hnone (by simp)

theorem stepFile_inv_err (maxB : Nat) (out src stem : String) (st : RunState)
    (e : RunState) (f : SrcFile) (hInv : ctxInvKey maxB st)
    (h : stepFile maxB out src stem st f = .error e) : finOk maxB e := by
  obtain ⟨h1, h2, h3⟩ := hInv
  obtain ⟨p, sz, rr⟩ := f
  cases sz with
  | none => simp [stepFile] at h
  | some n =>
    cases rr with
    | bytes bs =>
      cases hcur : st.cur with
      | none =>
        simp only [stepFile, hcur, Option.isSome_none, Bool.false_eq_true, false_and,
          if_false, Option.map_some, List.nil_append, reduceCtorEq] at h
      | some b0 =>
        by_cases hC : st.currentSize + n > maxB ∧ 0 < st.currentSize
        · simp only [stepFile, hcur, Option.isSome_some, true_and, if_pos hC, closeCur,
            Option.map_some, List.nil_append, reduceCtorEq] at h
        · simp only [stepFile, hcur, Option.isSome_some, true_and, if_neg hC,
            Option.map_some, reduceCtorEq] at h
    | notFound =>
      cases hcur : st.cur with
      | none =>
        simp only [stepFile, hcur, Option.isSome_none, Bool.false_eq_true, false_and,
          if_false, Except.error.injEq] at h
        subst h
        exact fun b hb => h1 b hb
      | some b0 =>
        by_cases hC : st.currentSize + n > maxB ∧ 0 < st.currentSize
        · simp only [stepFile, hcur, Option.isSome_some, true_and, if_pos hC, closeCur,
            Except.error.injEq] at h
          subst h
          intro b hb
          dsimp only at hb
          rcases List.mem_append.mp hb with hb | hb
          · exact h1 b hb
          · rw [List.mem_singleton.mp hb]
            exact (h2 b0 hcur).2
        · simp only [stepFile, hcur, Option.isSome_some, true_and, if_neg hC,
            Except.error.injEq] at h
          subst h
          exact fun b hb => h1 b hb
    | raisesOther =>
      cases hcur : st.cur with
      | none =>
        simp only [stepFile, hcur, Option.isSome_none, Bool.false_eq_true, false_and,
          if_false, Except.error.injEq] at h
        subst h
        exact fun b hb => h1 b hb
      | some b0 =>
        by_cases hC : st.currentSize + n > maxB ∧ 0 < st.currentSize
        · simp only [stepFile, hcur, Option.isSome_some, true_and, if_pos hC, closeCur,
            Except.error.injEq] at h
          subst h
          intro b hb
          dsimp only at hb
          rcases List.mem_append.mp hb with hb | hb
          · exact h1 b hb
          · rw [List.mem_singleton.mp hb]
            exact (h2 b0 hcur).2
        · simp only [stepFile, hcur, Option.isSome_some, true_and, if_neg hC,
            Except.error.injEq] at h
          subst h
          exact fun b hb => h1 b hb

theorem processFiles_inv (maxB : Nat) (out src stem : String) :
    ∀ (fs : List SrcFile) (st : RunState), ctxInvKey maxB st →
      (∀ st', processFiles maxB out src stem st fs = .ok st' → ctxInvKey maxB st') ∧
      (∀ e, processFiles maxB out src stem st fs = .error e → finOk maxB e) := by
  intro fs
  induction fs with
  | nil =>
    intro st hInv
    constructor
    · intro st' h
      cases h
      exact hInv
    · intro e h
      exact absurd h (by simp [processFiles])
  | cons f fs ih =>
    intro st hInv
    constructor
    · intro st' h
      rw [processFiles] at h
      cases hsf : stepFile maxB out src stem st f with
      | ok st1 =>
        rw [hsf] at h
        dsimp only at h
        exact (ih st1 (stepFile_inv_ok maxB out src stem st st1 f hInv hsf)).1 st' h
      | error e1 =>
        rw [hsf] at h
        dsimp only at h
        exact absurd h (by simp)
    · intro e h
      rw [processFiles] at h
      cases hsf : stepFile maxB out src stem st f with
      | ok st1 =>
        rw [hsf] at h
        dsimp only at h
        exact (ih st1 (stepFile_inv_ok maxB out src stem st st1 f hInv hsf)).2 e h
      | error e1 =>
        rw [hsf] at h
        dsimp only at h
        injection h with h
        subst h
        exact stepFile_inv_err maxB out src stem st e1 f hInv hsf

theorem closeCur_finOk (maxB : Nat) (st : RunState) (hInv : ctxInvKey maxB st) :
    finOk maxB (closeCur st) := by
  obtain ⟨h1, h2, _⟩ := hInv
  intro b hb
  cases hcur : st.cur with
  | none =>
    simp only [closeCur, hcur] at hb
    exact h1 b hb
  | some bb =>
    simp only [closeCur, hcur] at hb
    rcases List.mem_append.mp hb with hb | hb
    · exact h1 b hb
    · rw [List.mem_singleton.mp hb]
      exact (h2 bb hcur).2

theorem processKey_inv (maxB : Nat) (out src : String) (st : RunState) (ext : String)
    (files : List SrcFile) (hFin : finOk maxB st) :
    (∀ st', processKey maxB out src st ext files = .ok st' → finOk maxB st') ∧
    (∀ e, processKey maxB out src st ext files = .error e → finOk maxB e) := by
  have hreset : ctxInvKey maxB { st with partNum := 1, currentSize := 0, cur := none } := by
    refine ⟨?_, ?_, ?_⟩
    · exact fun b hb => hFin b hb
    · intro b hb
      exact absurd hb (by simp)
    · intro _
      rfl
  have hPF := processFiles_inv maxB out src (stripDot ext ++ "_context") (sortFiles files)
      { st with partNum := 1, currentSize := 0, cur := none } hreset
  constructor
  · intro st' h
    simp only [processKey] at h
    cases hpf : processFiles maxB out src (stripDot ext ++ "_context")
        { st with partNum := 1, currentSize := 0, cur := none } (sortFiles files) with
    | ok st1 =>
      rw [hpf] at h
      dsimp only at h
      injection h with h
      subst h
      exact closeCur_finOk maxB st1 (hPF.1 st1 hpf)
    | error e1 =>
      rw [hpf] at h
      dsimp only at h
      exact absurd h (by simp)
  · intro e h
    simp only [processKey] at h
    cases hpf : processFiles maxB out src (stripDot ext ++ "_context")
        { st with partNum := 1, currentSize := 0, cur := none } (sortFiles files) with
    | ok st1 =>
      rw [hpf] at h
      dsimp only at h
      exact absurd h (by simp)
    | error e1 =>
      rw [hpf] at h
      dsimp only at h
      injection h with h
      subst h
      exact hPF.2 e1 hpf

theorem ctxGo_inv (maxB : Nat) (out src : String) :
    ∀ (grouped : List (String × List SrcFile)) (st : RunState), finOk maxB st →
      (∀ (st' : RunState) (ga : List (String × List SrcFile)),
        ctxGo maxB out src st grouped = .ok (st', ga) → finOk maxB st') ∧
      (∀ e, ctxGo maxB out src st grouped = .error e → finOk maxB e) := by
  intro grouped
  induction grouped with
  | nil =>
    intro st hFin
    constructor
    · intro st' ga h
      simp only [ctxGo, Except.ok.injEq, Prod.mk.injEq] at h
      rw [← h.1]
      exact hFin
    · intro e h
      exact absurd h (by simp [ctxGo])
  | cons g rest ih =>
    intro st hFin
    obtain ⟨ext, files⟩ := g
    by_cases hbin : ext ∈ BINARY_EXTENSIONS
    · constructor
      · intro st' ga h
        rw [ctxGo, if_pos hbin] at h
        cases hgo : ctxGo maxB out src st rest with
        | ok r1 =>
          obtain ⟨st1, ga1⟩ := r1
          rw [hgo] at h
          dsimp only at h
          simp only [Except.ok.injEq, Prod.mk.injEq] at h
          rw [← h.1]
          exact (ih st hFin).1 st1 ga1 hgo
        | error e1 =>
          rw [hgo] at h
          dsimp only at h
          exact absurd h (by simp)
      · intro e h
        rw [ctxGo, if_pos hbin] at h
        cases hgo : ctxGo maxB out src st rest with
        | ok r1 =>
          obtain ⟨st1, ga1⟩ := r1
          rw [hgo] at h
          dsimp only at h
          exact absurd h (by simp)
        | error e1 =>
          rw [hgo] at h
          dsimp only at h
          injection h with h
          subst h
          exact (ih st hFin).2 e1 hgo
    · constructor
      · intro st' ga h
        rw [ctxGo, if_neg hbin] at h
        cases hpk : processKey maxB out src st ext files with
        | ok st1 =>
          rw [hpk] at h
          dsimp only at h
          have hFin1 := (processKey_inv maxB out src st ext files hFin).1 st1 hpk
          cases hgo : ctxGo maxB out src st1 rest with
          | ok r1 =>
            obtain ⟨st2, ga2⟩ := r1
            rw [hgo] at h
            dsimp only at h
            simp only [Except.ok.injEq, Prod.mk.injEq] at h
            rw [← h.1]
            exact (ih st1 hFin1).1 st2 ga2 hgo
          | error e1 =>
            rw [hgo] at h
            dsimp only at h
            exact absurd h (by simp)
        | error e1 =>
          rw [hpk] at h
          dsimp only at h
          exact absurd h (by simp)
      · intro e h
        rw [ctxGo, if_neg hbin] at h
        cases hpk : processKey maxB out src st ext files with
        | ok st1 =>
          rw [hpk] at h
          dsimp only at h
          have hFin1 := (processKey_inv maxB out src st ext files hFin).1 st1 hpk
          cases hgo : ctxGo maxB out src st1 rest with
          | ok r1 =>
            obtain ⟨st2, ga2⟩ := r1
            rw [hgo] at h
            dsimp only at h
            exact absurd h (by simp)
          | error e1 =>
            rw [hgo] at h
            dsimp only at h
            injection h with h
            subst h
            exact (ih st1 hFin1).2 e1 hgo
        | error e1 =>
          rw [hpk] at h
          dsimp only at h
          injection h with h
          subst h
          exact (processKey_inv maxB out src st ext files hFin).2 e1 hpk

/-- Counterexample to C2 as stated: with bound 10, a zero-size file
followed by an 11-byte file land in one bundle of recorded size 11 with
two records — over the bound without being a single-file bundle. -/
theorem c2_counterexample :
    finishedOf (create_context_files
        [(".txt", [⟨"tmp/a.txt", some 0, ReadOutcome.bytes []⟩,
                   ⟨"tmp/b.txt", some 11, ReadOutcome.bytes [97]⟩])] "out" "tmp" 10)
      = [⟨"out/txt_context_1.txt", [⟨"a.txt", 0, []⟩, ⟨"b.txt", 11, [97]⟩]⟩] ∧
    ¬ c2Claimed 10 [⟨"a.txt", 0, []⟩, ⟨"b.txt", 11, [97]⟩] := by
  constructor
  · rfl
  · intro h
    rcases h with h | ⟨l, hl, _⟩
    · exact absurd h (by decide)
    · exact absurd hl (by simp)

/-- C2 as amended: every bundle the Individual-mode aggregator closes
(on the normal or the exceptional path) has recorded size at most the
bound, unless all its records but the last have stat size 0 and the last
record's size alone exceeds the bound (in particular a single oversized
file is stored whole, never split). -/
theorem c2_size_bound :
    ∀ (grouped : List (String × List SrcFile)) (out src : String) (maxB : Nat),
      ∀ b ∈ finishedOf (create_context_files grouped out src maxB),
        bundleOk maxB b.entries := by
  intro grouped out src maxB b hb
  have hinit : finOk maxB initState := fun x hx => absurd hx (by simp [initState])
  have hinv := ctxGo_inv maxB out src grouped initState hinit
  cases hr : create_context_files grouped out src maxB with
  | ok r =>
    obtain ⟨st', ga⟩ := r
    rw [hr] at hb
    dsimp only [finishedOf] at hb
    exact hinv.1 st' ga hr b hb
  | error e =>
    rw [hr] at hb
    dsimp only [finishedOf] at hb
    exact hinv.2 e hr b hb

/-- Witness for C2 (amended): a run with one 7-byte file under a 10-byte
bound; its single closed bundle is within the bound. -/
theorem c2_size_bound_witness :
    (⟨"out/txt_context_1.txt", [⟨"a.txt", 7, [104]⟩]⟩ : BundleFile) ∈
      finishedOf (create_context_files
        [(".txt", [⟨"tmp/a.txt", some 7, ReadOutcome.bytes [104]⟩])] "out" "tmp" 10) ∧
    bundleOk 10 ([⟨"a.txt", 7, [104]⟩] : List BundleEntry) :=
  ⟨by decide,
   c2_size_bound [(".txt", [⟨"tmp/a.txt", some 7, ReadOutcome.bytes [104]⟩])] "out" "tmp" 10
     ⟨"out/txt_context_1.txt", [⟨"a.txt", 7, [104]⟩]⟩ (by decide)⟩

/-! ## C5: handle cleanup -/

theorem stepFile_handle (maxB : Nat) (out src stem : String) (st : RunState)
    (f : SrcFile) (hInv : handleInv st) :
    (∀ st', stepFile maxB out src stem st f = .ok st' → handleInv st') ∧
    (∀ e, stepFile maxB out src stem st f = .error e → handleInv e) := by
  obtain ⟨p, sz, rr⟩ := f
  unfold handleInv at hInv
  cases sz with
  | none =>
    constructor
    · intro st' h
      cases h
      exact hInv
    · intro e h
      exact absurd h (by simp [stepFile])
  | some n =>
    cases hcur : st.cur with
    | none =>
      have hcn : curNames st = [] := by simp [curNames, hcur]
      rw [hcn, List.append_nil] at hInv
      cases rr with
      | bytes bs =>
        constructor
        · intro st' h
          simp only [stepFile, hcur, Option.isSome_none, Bool.false_eq_true, false_and,
            if_false, Option.map_some, List.nil_append, Except.ok.injEq] at h
          subst h
          simp [handleInv, curNames, hInv]
        · intro e h
          simp only [stepFile, hcur, Option.isSome_none, Bool.false_eq_true, false_and,
            if_false, Option.map_some, reduceCtorEq] at h
      | notFound =>
        constructor
        · intro st' h
          simp only [stepFile, hcur, Option.isSome_none, Bool.false_eq_true, false_and,
            if_false, reduceCtorEq] at h
        · intro e h
          simp only [stepFile, hcur, Option.isSome_none, Bool.false_eq_true, false_and,
            if_false, Except.error.injEq] at h
          subst h
          simp [handleInv, curNames, hInv]
      | raisesOther =>
        constructor
        · intro st' h
          simp only [stepFile, hcur, Option.isSome_none, Bool.false_eq_true, false_and,
            if_false, reduceCtorEq] at h
        · intro e h
          simp only [stepFile, hcur, Option.isSome_none, Bool.false_eq_true, false_and,
            if_false, Except.error.injEq] at h
          subst h
          simp [handleInv, curNames, hInv]
    | some b0 =>
      have hcn : curNames st = [b0.name] := by simp [curNames, hcur]
      rw [hcn] at hInv
      by_cases hC : st.currentSize + n > maxB ∧ 0 < st.currentSize
      · cases rr with
        | bytes bs =>
          constructor
          · intro st' h
            simp only [stepFile, hcur, Option.isSome_some, true_and, if_pos hC, closeCur,
              Option.map_some, List.nil_append, Except.ok.injEq] at h
            subst h
            simp [handleInv, curNames, hInv]
          · intro e h
            simp only [stepFile, hcur, Option.isSome_some, true_and, if_pos hC, closeCur,
              Option.map_some, reduceCtorEq] at h
        | notFound =>
          constructor
          · intro st' h
            simp only [stepFile, hcur, Option.isSome_some, true_and, if_pos hC, closeCur,
              reduceCtorEq] at h
          · intro e h
            simp only [stepFile, hcur, Option.isSome_some, true_and, if_pos hC, closeCur,
              Except.error.injEq] at h
            subst h
            simp [handleInv, curNames, hInv]
        | raisesOther =>
          constructor
          · intro st' h
            simp only [stepFile, hcur, Option.isSome_some, true_and, if_pos hC, closeCur,
              reduceCtorEq] at h
          · intro e h
            simp only [stepFile, hcur, Option.isSome_some, true_and, if_pos hC, closeCur,
              Except.error.injEq] at h
            subst h
            simp [handleInv, curNames, hInv]
      · cases rr with
        | bytes bs =>
          constructor
          · intro st' h
            simp only [stepFile, hcur, Option.isSome_some, true_and, if_neg hC,
              Option.map_some, Except.ok.injEq] at h
            subst h
            simp [handleInv, curNames, hInv]
          · intro e h
            simp only [stepFile, hcur, Option.isSome_some, true_and, if_neg hC,
              Option.map_some, reduceCtorEq] at h
        | notFound =>
          constructor
          · intro st' h
            simp only [stepFile, hcur, Option.isSome_some, true_and, if_neg hC,
              reduceCtorEq] at h
          · intro e h
            simp only [stepFile, hcur, Option.isSome_some, true_and, if_neg hC,
              Except.error.injEq] at h
            subst h
            rw [handleInv, hcn]
            exact hInv
        | raisesOther =>
          constructor
          · intro st' h
            simp only [stepFile, hcur, Option.isSome_some, true_and, if_neg hC,
              reduceCtorEq] at h
          · intro e h
            simp only [stepFile, hcur, Option.isSome_some, true_and, if_neg hC,
              Except.error.injEq] at h
            subst h
            rw [handleInv, hcn]
            exact hInv

theorem processFiles_handle (maxB : Nat) (out src stem : String) :
    ∀ (fs : List SrcFile) (st : RunState), handleInv st →
      (∀ st', processFiles maxB out src stem st fs = .ok st' → handleInv st') ∧
      (∀ e, processFiles maxB out src stem st fs = .error e → handleInv e) := by
  intro fs
  induction fs with
  | nil =>
    intro st hInv
    constructor
    · intro st' h
      cases h
      exact hInv
    · intro e h
      exact absurd h (by simp [processFiles])
  | cons f fs ih =>
    intro st hInv
    constructor
    · intro st' h
      rw [processFiles] at h
      cases hsf : stepFile maxB out src stem st f with
      | ok st1 =>
        rw [hsf] at h
        dsimp only at h
        exact (ih st1 ((stepFile_handle maxB out src stem st f hInv).1 st1 hsf)).1 st' h
      | error e1 =>
        rw [hsf] at h
        dsimp only at h
        exact absurd h (by simp)
    · intro e h
      rw [processFiles] at h
      cases hsf : stepFile maxB out src stem st f with
      | ok st1 =>
        rw [hsf] at h
        dsimp only at h
        exact (ih st1 ((stepFile_handle maxB out src stem st f hInv).1 st1 hsf)).2 e h
      | error e1 =>
        rw [hsf] at h
        dsimp only at h
        injection h with h
        subst h
        exact (stepFile_handle maxB out src stem st f hInv).2 e1 hsf

theorem closeCur_handle (st : RunState) (hInv : handleInv st) :
    (closeCur st).opened = (closeCur st).closed ∧ (closeCur st).cur = none := by
  unfold handleInv at hInv
  cases hcur : st.cur with
  | none =>
    have : curNames st = [] := by simp [curNames, hcur]
    rw [this, List.append_nil] at hInv
    simp [closeCur, hcur, hInv]
  | some b =>
    have : curNames st = [b.name] := by simp [curNames, hcur]
    rw [this] at hInv
    simp [closeCur, hcur, hInv]

theorem processKey_handle (maxB : Nat) (out src : String) (st : RunState) (ext : String)
    (files : List SrcFile) (hoc : st.opened = st.closed) :
    (∀ st', processKey maxB out src st ext files = .ok st' →
      st'.opened = st'.closed ∧ st'.cur = none) ∧
    (∀ e, processKey maxB out src st ext files = .error e → handleInv e) := by
  have hreset : handleInv { st with partNum := 1, currentSize := 0, cur := none } := by
    unfold handleInv curNames
    dsimp only
    rw [hoc, List.append_nil]
  have hPF := processFiles_handle maxB out src (stripDot ext ++ "_context") (sortFiles files)
      { st with partNum := 1, currentSize := 0, cur := none } hreset
  constructor
  · intro st' h
    simp only [processKey] at h
    cases hpf : processFiles maxB out src (stripDot ext ++ "_context")
        { st with partNum := 1, currentSize := 0, cur := none } (sortFiles files) with
    | ok st1 =>
      rw [hpf] at h
      dsimp only at h
      injection h with h
      subst h
      exact closeCur_handle st1 (hPF.1 st1 hpf)
    | error e1 =>
      rw [hpf] at h
      dsimp only at h
      exact absurd h (by simp)
  · intro e h
    simp only [processKey] at h
    cases hpf : processFiles maxB out src (stripDot ext ++ "_context")
        { st with partNum := 1, currentSize := 0, cur := none } (sortFiles files) with
    | ok st1 =>
      rw [hpf] at h
      dsimp only at h
      exact absurd h (by simp)
    | error e1 =>
      rw [hpf] at h
      dsimp only at h
      injection h with h
      subst h
      exact hPF.2 e1 hpf

theorem ctxGo_handle (maxB : Nat) (out src : String) :
    ∀ (grouped : List (String × List SrcFile)) (st : RunState), st.opened = st.closed →
      (∀ (st' : RunState) (ga : List (String × List SrcFile)),
        ctxGo maxB out src st grouped = .ok (st', ga) → st'.opened = st'.closed) ∧
      (∀ e, ctxGo maxB out src st grouped = .error e → handleInv e) := by
  intro grouped
  induction grouped with
  | nil =>
    intro st hoc
    constructor
    · intro st' ga h
      simp only [ctxGo, Except.ok.injEq, Prod.mk.injEq] at h
      rw [← h.1]
      exact hoc
    · intro e h
      exact absurd h (by simp [ctxGo])
  | cons g rest ih =>
    intro st hoc
    obtain ⟨ext, files⟩ := g
    by_cases hbin : ext ∈ BINARY_EXTENSIONS
    · constructor
      · intro st' ga h
        rw [ctxGo, if_pos hbin] at h
        cases hgo : ctxGo maxB out src st rest with
        | ok r1 =>
          obtain ⟨st1, ga1⟩ := r1
          rw [hgo] at h
          dsimp only at h
          simp only [Except.ok.injEq, Prod.mk.injEq] at h
          rw [← h.1]
          exact (ih st hoc).1 st1 ga1 hgo
        | error e1 =>
          rw [hgo] at h
          dsimp only at h
          exact absurd h (by simp)
      · intro e h
        rw [ctxGo, if_pos hbin] at h
        cases hgo : ctxGo maxB out src st rest with
        | ok r1 =>
          obtain ⟨st1, ga1⟩ := r1
          rw [hgo] at h
          dsimp only at h
          exact absurd h (by simp)
        | error e1 =>
          rw [hgo] at h
          dsimp only at h
          injection h with h
          subst h
          exact (ih st hoc).2 e1 hgo
    · constructor
      · intro st' ga h
        rw [ctxGo, if_neg hbin] at h
        cases hpk : processKey maxB out src st ext files with
        | ok st1 =>
          rw [hpk] at h
          dsimp only at h
          have h1 := ((processKey_handle maxB out src st ext files hoc).1 st1 hpk).1
          cases hgo : ctxGo maxB out src st1 rest with
          | ok r1 =>
            obtain ⟨st2, ga2⟩ := r1
            rw [hgo] at h
            dsimp only at h
            simp only [Except.ok.injEq, Prod.mk.injEq] at h
            rw [← h.1]
            exact (ih st1 h1).1 st2 ga2 hgo
          | error e1 =>
            rw [hgo] at h
            dsimp only at h
            exact absurd h (by simp)
        | error e1 =>
          rw [hpk] at h
          dsimp only at h
          exact absurd h (by simp)
      · intro e h
        rw [ctxGo, if_neg hbin] at h
        cases hpk : processKey maxB out src st ext files with
        | ok st1 =>
          rw [hpk] at h
          dsimp only at h
          have h1 := ((processKey_handle maxB out src st ext files hoc).1 st1 hpk).1
          cases hgo : ctxGo maxB out src st1 rest with
          | ok r1 =>
            obtain ⟨st2, ga2⟩ := r1
            rw [hgo] at h
            dsimp only at h
            exact absurd h (by simp)
          | error e1 =>
            rw [hgo] at h
            dsimp only at h
            injection h with h
            subst h
            exact (ih st1 h1).2 e1 hgo
        | error e1 =>
          rw [hpk] at h
          dsimp only at h
          injection h with h
          subst h
          exact (processKey_handle maxB out src st ext files hoc).2 e1 hpk

theorem updateB_map_name :
    ∀ (gs : List (String × CombBundle)) (ext : String) (e : CombEntry),
      (updateB gs ext e).map (fun kb => kb.2.name) = gs.map (fun kb => kb.2.name) := by
  intro gs ext e
  induction gs with
  | nil => rfl
  | cons kb rest ih =>
    obtain ⟨k, b⟩ := kb
    by_cases h : k = ext
    · simp [updateB, h]
    · simp [updateB, h, ih]

/-- The handle bookkeeping of Combined mode: before the `finally`, every
opened handle is in `open_files` (keyed by extension, in opening order)
and nothing has been closed yet. -/
def combHandleInv (st : CombState) : Prop :=
  st.opened = st.openFiles.map (fun kb => kb.2.name) ∧ st.closed = []

theorem processCombFiles_handle (jarName ext : String) :
    ∀ (fs : List SrcFile) (st : CombState), combHandleInv st →
      (∀ st', processCombFiles jarName ext st fs = .ok st' → combHandleInv st') ∧
      (∀ e, processCombFiles jarName ext st fs = .error e → combHandleInv e) := by
  intro fs
  induction fs with
  | nil =>
    intro st hInv
    constructor
    · intro st' h
      cases h
      exact hInv
    · intro e h
      exact absurd h (by simp [processCombFiles])
  | cons f fs ih =>
    intro st hInv
    have hstep : ∀ st1, processCombFile st ext jarName f = .ok st1 → combHandleInv st1 := by
      intro st1 h
      obtain ⟨p, sz, rr⟩ := f
      cases rr with
      | bytes bs =>
        simp only [processCombFile, Except.ok.injEq] at h
        subst h
        refine ⟨?_, hInv.2⟩
        show st.opened = _
        rw [hInv.1]
        exact (updateB_map_name st.openFiles ext _).symm
      | notFound => simp [processCombFile] at h
      | raisesOther => simp [processCombFile] at h
    have hstepE : ∀ e, processCombFile st ext jarName f = .error e → combHandleInv e := by
      intro e h
      obtain ⟨p, sz, rr⟩ := f
      cases rr with
      | bytes bs => simp [processCombFile] at h
      | notFound =>
        simp only [processCombFile, Except.error.injEq] at h
        subst h
        exact hInv
      | raisesOther =>
        simp only [processCombFile, Except.error.injEq] at h
        subst h
        exact hInv
    constructor
    · intro st' h
      rw [processCombFiles] at h
      cases hsf : processCombFile st ext jarName f with
      | ok st1 =>
        rw [hsf] at h
        dsimp only at h
        exact (ih st1 (hstep st1 hsf)).1 st' h
      | error e1 =>
        rw [hsf] at h
        dsimp only at h
        exact absurd h (by simp)
    · intro e h
      rw [processCombFiles] at h
      cases hsf : processCombFile st ext jarName f with
      | ok st1 =>
        rw [hsf] at h
        dsimp only at h
        exact (ih st1 (hstep st1 hsf)).2 e h
      | error e1 =>
        rw [hsf] at h
        dsimp only at h
        injection h with h
        subst h
        exact hstepE e1 hsf

theorem openCombFile_handle (fs0 : String → List Nat) (out : String) (st : CombState)
    (ext : String) (hInv : combHandleInv st) :
    combHandleInv (openCombFile fs0 out st ext) := by
  unfold combHandleInv openCombFile
  dsimp only
  rw [hInv.1, hInv.2]
  constructor
  · rw [List.map_append]
    rfl
  · rfl

theorem processCombGroup_handle (fs0 : String → List Nat) (out jarName : String)
    (st : CombState) (ext : String) (files : List SrcFile) (hInv : combHandleInv st) :
    (∀ st', processCombGroup fs0 out jarName st ext files = .ok st' → combHandleInv st') ∧
    (∀ e, processCombGroup fs0 out jarName st ext files = .error e → combHandleInv e) := by
  by_cases hbin : ext ∈ BINARY_EXTENSIONS
  · constructor
    · intro st' h
      rw [processCombGroup, if_pos hbin] at h
      cases h
      exact hInv
    · intro e h
      rw [processCombGroup, if_pos hbin] at h
      exact absurd h (by simp)
  · have hInv1 : combHandleInv (if (lookupA st.openFiles ext).isSome then st
        else openCombFile fs0 out st ext) := by
      by_cases hk : (lookupA st.openFiles ext).isSome
      · rw [if_pos hk]
        exact hInv
      · rw [if_neg hk]
        exact openCombFile_handle fs0 out st ext hInv
    constructor
    · intro st' h
      rw [processCombGroup, if_neg hbin] at h
      exact (processCombFiles_handle jarName ext (sortFiles files) _ hInv1).1 st' h
    · intro e h
      rw [processCombGroup, if_neg hbin] at h
      exact (processCombFiles_handle jarName ext (sortFiles files) _ hInv1).2 e h

theorem processCombGroups_handle (fs0 : String → List Nat) (out jarName : String) :
    ∀ (groups : List (String × List SrcFile)) (st : CombState), combHandleInv st →
      (∀ st', processCombGroups fs0 out jarName st groups = .ok st' → combHandleInv st') ∧
      (∀ e, processCombGroups fs0 out jarName st groups = .error e → combHandleInv e) := by
  intro groups
  induction groups with
  | nil =>
    intro st hInv
    constructor
    · intro st' h
      cases h
      exact hInv
    · intro e h
      exact absurd h (by simp [processCombGroups])
  | cons g rest ih =>
    intro st hInv
    obtain ⟨ext, files⟩ := g
    constructor
    · intro st' h
      rw [processCombGroups] at h
      cases hg : processCombGroup fs0 out jarName st ext files with
      | ok st1 =>
        rw [hg] at h
        dsimp only at h
        exact (ih st1 ((processCombGroup_handle fs0 out jarName st ext files hInv).1 st1 hg)).1 st' h
      | error e1 =>
        rw [hg] at h
        dsimp only at h
        exact absurd h (by simp)
    · intro e h
      rw [processCombGroups] at h
      cases hg : processCombGroup fs0 out jarName st ext files with
      | ok st1 =>
        rw [hg] at h
        dsimp only at h
        exact (ih st1 ((processCombGroup_handle fs0 out jarName st ext files hInv).1 st1 hg)).2 e h
      | error e1 =>
        rw [hg] at h
        dsimp only at h
        injection h with h
        subst h
        exact (processCombGroup_handle fs0 out jarName st ext files hInv).2 e1 hg

theorem combGo_handle (fs0 : String → List Nat) (out : String) :
    ∀ (jars : List JarInput) (st : CombState), combHandleInv st →
      (∀ st', combGo fs0 out st jars = .ok st' → combHandleInv st') ∧
      (∀ e, combGo fs0 out st jars = .error e → combHandleInv e) := by
  intro jars
  induction jars with
  | nil =>
    intro st hInv
    constructor
    · intro st' h
      cases h
      exact hInv
    · intro e h
      exact absurd h (by simp [combGo])
  | cons j rest ih =>
    intro st hInv
    have hJ : (∀ st1, processJar fs0 out st j = .ok st1 → combHandleInv st1) ∧
        (∀ e, processJar fs0 out st j = .error e → combHandleInv e) := by
      by_cases hok : j.extractOk
      · constructor
        · intro st1 h
          rw [processJar, if_pos hok] at h
          exact (processCombGroups_handle fs0 out j.jarName (groupByExt j.files) st hInv).1 st1 h
        · intro e h
          rw [processJar, if_pos hok] at h
          exact (processCombGroups_handle fs0 out j.jarName (groupByExt j.files) st hInv).2 e h
      · constructor
        · intro st1 h
          rw [processJar, if_neg hok] at h
          cases h
          exact hInv
        · intro e h
          rw [processJar, if_neg hok] at h
          exact absurd h (by simp)
    constructor
    · intro st' h
      rw [combGo] at h
      cases hj : processJar fs0 out st j with
      | ok st1 =>
        rw [hj] at h
        dsimp only at h
        exact (ih st1 (hJ.1 st1 hj)).1 st' h
      | error e1 =>
        rw [hj] at h
        dsimp only at h
        exact absurd h (by simp)
    · intro e h
      rw [combGo] at h
      cases hj : processJar fs0 out st j with
      | ok st1 =>
        rw [hj] at h
        dsimp only at h
        exact (ih st1 (hJ.1 st1 hj)).2 e h
      | error e1 =>
        rw [hj] at h
        dsimp only at h
        injection h with h
        subst h
        exact hJ.2 e1 hj

/-- Counterexample to C5 as stated: `create_context_files` has no
try/finally — when a read raises partway through, the run aborts with the
just-opened handle still open (`opened` has an entry, `closed` is empty),
so not every opened handle is closed on the error path in Individual
mode. -/
theorem c5_counterexample :
    create_context_files
        [(".java", [⟨"tmp/A.java", some 3, ReadOutcome.raisesOther⟩])] "out" "tmp" 10
      = .error ⟨["out/java_context_1.txt"], [], ["out/java_context_1.txt"], [],
                some ⟨"out/java_context_1.txt", []⟩, 1, 0⟩ ∧
    (["out/java_context_1.txt"] : List String) ≠ ([] : List String) :=
  ⟨rfl, by decide⟩

/-- C5 as amended: on normal completion the Individual-mode aggregator
has closed every handle it opened (in order); on an exception it has
closed every handle except the currently open one, which leaks.  In
Combined mode the `finally` closes every opened handle on both the normal
and the exceptional path. -/
theorem c5_handles_closed :
    (∀ (grouped : List (String × List SrcFile)) (out src : String) (maxB : Nat)
        (st : RunState) (ga : List (String × List SrcFile)),
      create_context_files grouped out src maxB = .ok (st, ga) →
      st.opened = st.closed) ∧
    (∀ (grouped : List (String × List SrcFile)) (out src : String) (maxB : Nat)
        (e : RunState),
      create_context_files grouped out src maxB = .error e →
      e.opened = e.closed ++ curNames e) ∧
    (∀ (fs0 : String → List Nat) (out : String) (jars : List JarInput),
      (combFinal (combinedRun fs0 out jars)).closed
        = (combFinal (combinedRun fs0 out jars)).opened) := by
  refine ⟨?_, ?_, ?_⟩
  · intro grouped out src maxB st ga h
    exact (ctxGo_handle maxB out src grouped initState rfl).1 st ga h
  · intro grouped out src maxB e h
    exact (ctxGo_handle maxB out src grouped initState rfl).2 e h
  · intro fs0 out jars
    have hinit : combHandleInv ⟨[], [], [], []⟩ := ⟨rfl, rfl⟩
    have hgo := combGo_handle fs0 out jars ⟨[], [], [], []⟩ hinit
    unfold combinedRun
    cases hg : combGo fs0 out ⟨[], [], [], []⟩ jars with
    | ok st1 =>
      have hInv := hgo.1 st1 hg
      dsimp only [combFinal]
      rw [closeAll, hInv.2, hInv.1]
      rfl
    | error e1 =>
      have hInv := hgo.2 e1 hg
      dsimp only [combFinal]
      rw [closeAll, hInv.2, hInv.1]
      rfl

/-- Witness for C5: a one-key, one-file run that completes normally has
`opened = closed`. -/
theorem c5_handles_closed_witness :
    create_context_files
        [(".txt", [⟨"tmp/a.txt", some 1, ReadOutcome.bytes []⟩])] "out" "tmp" 10
      = .ok (⟨["out/txt_context_1.txt"], ["out/txt_context_1.txt"], ["out/txt_context_1.txt"],
              [⟨"out/txt_context_1.txt", [⟨"a.txt", 1, []⟩]⟩], none, 1, 1⟩,
             [(".txt", [⟨"tmp/a.txt", some 1, ReadOutcome.bytes []⟩])]) ∧
    (["out/txt_context_1.txt"] : List String) = ["out/txt_context_1.txt"] :=
  ⟨rfl,
   c5_handles_closed.1 [(".txt", [⟨"tmp/a.txt", some 1, ReadOutcome.bytes []⟩])] "out" "tmp" 10
     ⟨["out/txt_context_1.txt"], ["out/txt_context_1.txt"], ["out/txt_context_1.txt"],
      [⟨"out/txt_context_1.txt", [⟨"a.txt", 1, []⟩]⟩], none, 1, 1⟩
     [(".txt", [⟨"tmp/a.txt", some 1, ReadOutcome.bytes []⟩])] rfl⟩

/-! ## C4 and C10: the Combined-mode bundle map -/

theorem lookupA_updateB_self (gs : List (String × CombBundle)) (ext : String) (e : CombEntry) :
    lookupA (updateB gs ext e) ext
      = (lookupA gs ext).map fun b => ⟨b.name, b.pre, b.entries ++ [e]⟩ := by
  induction gs with
  | nil => rfl
  | cons kb rest ih =>
    obtain ⟨k, b⟩ := kb
    by_cases h : k = ext
    · subst h
      simp [updateB, lookupA]
    · simp [updateB, lookupA, h, ih]

theorem lookupA_updateB_ne (gs : List (String × CombBundle)) (ext k' : String)
    (e : CombEntry) (h : k' ≠ ext) :
    lookupA (updateB gs ext e) k' = lookupA gs k' := by
  induction gs with
  | nil => rfl
  | cons kb rest ih =>
    obtain ⟨k, b⟩ := kb
    by_cases hk : k = ext
    · subst hk
      have : k ≠ k' := fun hc => h hc.symm
      simp [updateB, lookupA, this]
    · by_cases hk' : k = k'
      · subst hk'
        simp [updateB, lookupA, hk]
      · simp [updateB, lookupA, hk, hk', ih]

theorem lookupA_append {α : Type} (gs hs : List (String × α)) (k : String) :
    lookupA (gs ++ hs) k = match lookupA gs k with
      | some v => some v
      | none => lookupA hs k := by
  induction gs with
  | nil => rfl
  | cons kb rest ih =>
    obtain ⟨k1, v⟩ := kb
    by_cases h : k1 = k
    · simp [lookupA, h]
    · simp [lookupA, h, ih]

theorem appendEntries_cons (st : CombState) (ext : String) (e : CombEntry)
    (es : List CombEntry) :
    appendEntries st ext (e :: es) = appendEntries (appendEntry st ext e) ext es := rfl

theorem appendEntries_fields (ext : String) :
    ∀ (es : List CombEntry) (st : CombState),
      (appendEntries st ext es).created = st.created ∧
      (appendEntries st ext es).opened = st.opened ∧
      (appendEntries st ext es).closed = st.closed := by
  intro es
  induction es with
  | nil => intro st; exact ⟨rfl, rfl, rfl⟩
  | cons e es ih =>
    intro st
    rw [appendEntries_cons]
    exact ih (appendEntry st ext e)

theorem appendEntries_lookup (ext : String) :
    ∀ (es : List CombEntry) (st : CombState) (k : String),
      lookupA (appendEntries st ext es).openFiles k
        = if k = ext
          then (lookupA st.openFiles ext).map fun b => ⟨b.name, b.pre, b.entries ++ es⟩
          else lookupA st.openFiles k := by
  intro es
  induction es with
  | nil =>
    intro st k
    by_cases h : k = ext
    · subst h
      rw [if_pos rfl]
      show lookupA st.openFiles k = _
      cases hlk : lookupA st.openFiles k with
      | none => rfl
      | some b => simp
    · rw [if_neg h]
      rfl
  | cons e es ih =>
    intro st k
    rw [appendEntries_cons, ih]
    by_cases h : k = ext
    · subst h
      rw [if_pos rfl, if_pos rfl]
      show Option.map _ (lookupA (updateB st.openFiles k e) k) = _
      rw [lookupA_updateB_self]
      cases hlk : lookupA st.openFiles k with
      | none => rfl
      | some b => simp
    · rw [if_neg h, if_neg h]
      exact lookupA_updateB_ne st.openFiles ext k e h

theorem processCombFile_bytes (st : CombState) (ext jarName p : String)
    (sz : Option Nat) (bs : List Nat) :
    processCombFile st ext jarName ⟨p, sz, .bytes bs⟩
      = .ok (appendEntry st ext (combRecord jarName ⟨p, sz, .bytes bs⟩)) := rfl

theorem processCombFiles_ok_eq (jarName ext : String) :
    ∀ (fs : List SrcFile) (st st' : CombState),
      processCombFiles jarName ext st fs = .ok st' →
      st' = appendEntries st ext (fs.map (combRecord jarName)) := by
  intro fs
  induction fs with
  | nil =>
    intro st st' h
    cases h
    rfl
  | cons f fs ih =>
    intro st st' h
    rw [processCombFiles] at h
    obtain ⟨p, sz, rr⟩ := f
    cases rr with
    | bytes bs =>
      rw [processCombFile_bytes] at h
      dsimp only at h
      rw [List.map_cons, appendEntries_cons]
      exact ih _ st' h
    | notFound =>
      rw [show processCombFile st ext jarName ⟨p, sz, .notFound⟩ = .error st from rfl] at h
      dsimp only at h
      exact absurd h (by simp)
    | raisesOther =>
      rw [show processCombFile st ext jarName ⟨p, sz, .raisesOther⟩ = .error st from rfl] at h
      dsimp only at h
      exact absurd h (by simp)

theorem processCombGroup_ok (fs0 : String → List Nat) (out jarName : String)
    (st st' : CombState) (ext : String) (files : List SrcFile)
    (h : processCombGroup fs0 out jarName st ext files = .ok st') :
    ∀ k, lookupA st'.openFiles k =
      match lookupA st.openFiles k with
      | some b => some ⟨b.name, b.pre, b.entries ++ groupRecords1 jarName ext files k⟩
      | none =>
        if ext = k ∧ ext ∉ BINARY_EXTENSIONS
        then some ⟨combName out k, fs0 (combName out k), groupRecords1 jarName ext files k⟩
        else none := by
  intro k
  by_cases hbin : ext ∈ BINARY_EXTENSIONS
  · rw [processCombGroup, if_pos hbin] at h
    cases h
    have hr1 : groupRecords1 jarName ext files k = [] := by
      rw [groupRecords1, if_neg]
      intro hc
      exact hc.2 hbin
    rw [hr1]
    cases hlk : lookupA st.openFiles k with
    | some b => simp
    | none =>
      rw [if_neg]
      intro hc
      exact hc.2 hbin
  · rw [processCombGroup, if_neg hbin] at h
    have hst' := processCombFiles_ok_eq jarName ext (sortFiles files) _ st' h
    rw [hst', appendEntries_lookup]
    by_cases hk : k = ext
    · subst hk
      rw [if_pos rfl]
      have hr1 : groupRecords1 jarName k files k = (sortFiles files).map (combRecord jarName) := by
        rw [groupRecords1, if_pos ⟨rfl, hbin⟩]
      rw [hr1]
      cases hlk : lookupA st.openFiles k with
      | some b =>
        simp only [Option.isSome_some, if_true, hlk]
        rfl
      | none =>
        simp only [Option.isSome_none, Bool.false_eq_true, if_false]
        rw [if_pos (And.intro (by trivial) hbin), openCombFile]
        dsimp only
        rw [lookupA_append, hlk]
        simp [lookupA]
    · rw [if_neg hk]
      have hr1 : groupRecords1 jarName ext files k = [] := by
        rw [groupRecords1, if_neg]
        intro hc
        exact hk hc.1.symm
      have hlk1 : (lookupA (if (lookupA st.openFiles ext).isSome then st
          else openCombFile fs0 out st ext).openFiles k) = lookupA st.openFiles k := by
        by_cases hke : (lookupA st.openFiles ext).isSome
        · rw [if_pos hke]
        · rw [if_neg hke, openCombFile]
          dsimp only
          rw [lookupA_append]
          cases hlk : lookupA st.openFiles k with
          | some v => rfl
          | none =>
            have : ext ≠ k := fun hc => hk hc.symm
            simp [lookupA, this]
      rw [hlk1, hr1]
      cases hlk : lookupA st.openFiles k with
      | some b => simp
      | none =>
        rw [if_neg]
        intro hc
        exact hk hc.1.symm

theorem groupRecords1_nil_of_ne (jarName ext : String) (files : List SrcFile) (k : String)
    (h : ext ≠ k) : groupRecords1 jarName ext files k = [] := by
  rw [groupRecords1, if_neg]
  intro hc
  exact h hc.1

theorem groupRecords_nil_of_not_touches (jarName : String)
    (groups : List (String × List SrcFile)) (k : String)
    (h : groupTouches groups k = false) : groupRecords jarName groups k = [] := by
  rw [groupTouches, Bool.and_eq_false_iff] at h
  induction groups with
  | nil => rfl
  | cons g rest ih =>
    rw [groupRecords, List.flatMap_cons, ← groupRecords]
    rcases h with h | h
    · have hbin : k ∈ BINARY_EXTENSIONS := by
        by_contra hc
        rw [decide_eq_false_iff_not] at h
        exact h hc
      have h1 : groupRecords1 jarName g.1 g.2 k = [] := by
        rw [groupRecords1, if_neg]
        intro hc
        rw [← hc.1] at hbin
        exact hc.2 hbin
      rw [h1, List.nil_append]
      apply ih
      left
      exact h
    · rw [List.any_cons, Bool.or_eq_false_iff] at h
      have h1 : groupRecords1 jarName g.1 g.2 k = [] := by
        apply groupRecords1_nil_of_ne
        intro hc
        rw [hc] at h
        simp at h
      rw [h1, List.nil_append]
      apply ih
      right
      exact h.2

theorem processCombGroups_ok (fs0 : String → List Nat) (out jarName : String) :
    ∀ (groups : List (String × List SrcFile)) (st st' : CombState),
      processCombGroups fs0 out jarName st groups = .ok st' →
      ∀ k, lookupA st'.openFiles k =
        match lookupA st.openFiles k with
        | some b => some ⟨b.name, b.pre, b.entries ++ groupRecords jarName groups k⟩
        | none =>
          if groupTouches groups k = true
          then some ⟨combName out k, fs0 (combName out k), groupRecords jarName groups k⟩
          else none := by
  intro groups
  induction groups with
  | nil =>
    intro st st' h k
    cases h
    cases hlk : lookupA st.openFiles k with
    | some b => simp [groupRecords]
    | none => simp [groupTouches]
  | cons g rest ih =>
    intro st st' h k
    obtain ⟨ext, files⟩ := g
    rw [processCombGroups] at h
    cases hg : processCombGroup fs0 out jarName st ext files with
    | error e =>
      rw [hg] at h
      dsimp only at h
      exact absurd h (by simp)
    | ok st1 =>
      rw [hg] at h
      dsimp only at h
      have h1 := processCombGroup_ok fs0 out jarName st st1 ext files hg
      have h2 := ih st1 st' h
      rw [h2 k, h1 k]
      have hrec : groupRecords jarName ((ext, files) :: rest) k
          = groupRecords1 jarName ext files k ++ groupRecords jarName rest k := by
        rw [groupRecords, List.flatMap_cons, ← groupRecords]
      cases hlk : lookupA st.openFiles k with
      | some b =>
        dsimp only
        rw [hrec, List.append_assoc]
      | none =>
        dsimp only
        by_cases hcond : ext = k ∧ ext ∉ BINARY_EXTENSIONS
        · rw [if_pos hcond]
          dsimp only
          have htch : groupTouches ((ext, files) :: rest) k = true := by
            obtain ⟨he, hnb⟩ := hcond
            subst he
            simp [groupTouches, hnb]
          rw [htch, if_pos rfl, hrec]
        · rw [if_neg hcond]
          dsimp only
          have hr1 : groupRecords1 jarName ext files k = [] := by
            rw [groupRecords1, if_neg hcond]
          have htch : groupTouches ((ext, files) :: rest) k = groupTouches rest k := by
            rw [groupTouches, groupTouches, List.any_cons]
            by_cases hbk : k ∈ BINARY_EXTENSIONS
            · simp [hbk]
            · have hne : (ext == k) = false := by
                rw [beq_eq_false_iff_ne]
                intro hc
                exact hcond ⟨hc, by rw [hc]; exact hbk⟩
              rw [hne, Bool.false_or]
          rw [htch, hrec, hr1, List.nil_append]

theorem combGo_ok_lookup (fs0 : String → List Nat) (out : String) :
    ∀ (jars : List JarInput) (st st' : CombState),
      combGo fs0 out st jars = .ok st' →
      ∀ k, lookupA st'.openFiles k =
        match lookupA st.openFiles k with
        | some b => some ⟨b.name, b.pre, b.entries ++ runRecords jars k⟩
        | none =>
          if runTouches jars k = true
          then some ⟨combName out k, fs0 (combName out k), runRecords jars k⟩
          else none := by
  intro jars
  induction jars with
  | nil =>
    intro st st' h k
    cases h
    cases hlk : lookupA st.openFiles k with
    | some b => simp [runRecords]
    | none => simp [runTouches]
  | cons j rest ih =>
    intro st st' h k
    rw [combGo] at h
    by_cases hok : j.extractOk
    · rw [show processJar fs0 out st j
          = processCombGroups fs0 out j.jarName st (groupByExt j.files) by
        rw [processJar, if_pos hok]] at h
      cases hg : processCombGroups fs0 out j.jarName st (groupByExt j.files) with
      | error e =>
        rw [hg] at h
        dsimp only at h
        exact absurd h (by simp)
      | ok st1 =>
        rw [hg] at h
        dsimp only at h
        have h1 := processCombGroups_ok fs0 out j.jarName (groupByExt j.files) st st1 hg
        have h2 := ih st1 st' h
        rw [h2 k, h1 k]
        have hrec : runRecords (j :: rest) k
            = groupRecords j.jarName (groupByExt j.files) k ++ runRecords rest k := by
          rw [runRecords, List.filter_cons, if_pos hok, List.flatMap_cons, ← runRecords]
        have htchc : runTouches (j :: rest) k
            = (groupTouches (groupByExt j.files) k || runTouches rest k) := by
          rw [runTouches, List.filter_cons, if_pos hok, List.any_cons, ← runTouches]
        cases hlk : lookupA st.openFiles k with
        | some b =>
          dsimp only
          rw [hrec, List.append_assoc]
        | none =>
          dsimp only
          by_cases htch1 : groupTouches (groupByExt j.files) k = true
          · rw [if_pos htch1]
            dsimp only
            rw [htchc, htch1, Bool.true_or, if_pos rfl, hrec]
          · have hf : groupTouches (groupByExt j.files) k = false :=
              Bool.eq_false_iff.mpr htch1
            rw [hf]
            simp only [Bool.false_eq_true, if_false]
            rw [htchc, hf, Bool.false_or, hrec,
              groupRecords_nil_of_not_touches j.jarName _ k hf, List.nil_append]
    · rw [show processJar fs0 out st j = .ok st by rw [processJar, if_neg hok]] at h
      dsimp only at h
      have h2 := ih st st' h
      rw [h2 k]
      have hok' : j.extractOk = false := Bool.eq_false_iff.mpr hok
      have hrec : runRecords (j :: rest) k = runRecords rest k := by
        rw [runRecords, List.filter_cons, hok']
        simp only [Bool.false_eq_true, if_false]
        rw [← runRecords]
      have htchc : runTouches (j :: rest) k = runTouches rest k := by
        rw [runTouches, List.filter_cons, hok']
        simp only [Bool.false_eq_true, if_false]
        rw [← runTouches]
      rw [hrec, htchc]

theorem combPres_files (P : CombState → Prop)
    (hApp : ∀ st ext e, P st → P (appendEntry st ext e)) (jarName ext : String) :
    ∀ (fs : List SrcFile) (st : CombState), P st →
      (∀ st', processCombFiles jarName ext st fs = .ok st' → P st') ∧
      (∀ e, processCombFiles jarName ext st fs = .error e → P e) := by
  intro fs
  induction fs with
  | nil =>
    intro st hP
    constructor
    · intro st' h
      cases h
      exact hP
    · intro e h
      exact absurd h (by simp [processCombFiles])
  | cons f fs ih =>
    intro st hP
    have hstep : (∀ st1, processCombFile st ext jarName f = .ok st1 → P st1) ∧
        (∀ e, processCombFile st ext jarName f = .error e → P e) := by
      obtain ⟨p, sz, rr⟩ := f
      cases rr with
      | bytes bs =>
        constructor
        · intro st1 h
          rw [processCombFile_bytes] at h
          cases h
          exact hApp st ext _ hP
        · intro e h
          exact absurd h (by simp [processCombFile])
      | notFound =>
        constructor
        · intro st1 h
          exact absurd h (by simp [processCombFile])
        · intro e h
          rw [show processCombFile st ext jarName ⟨p, sz, .notFound⟩ = .error st from rfl] at h
          cases h
          exact hP
      | raisesOther =>
        constructor
        · intro st1 h
          exact absurd h (by simp [processCombFile])
        · intro e h
          rw [show processCombFile st ext jarName ⟨p, sz, .raisesOther⟩ = .error st from rfl] at h
          cases h
          exact hP
    constructor
    · intro st' h
      rw [processCombFiles] at h
      cases hsf : processCombFile st ext jarName f with
      | ok st1 =>
        rw [hsf] at h
        dsimp only at h
        exact (ih st1 (hstep.1 st1 hsf)).1 st' h
      | error e1 =>
        rw [hsf] at h
        dsimp only at h
        exact absurd h (by simp)
    · intro e h
      rw [processCombFiles] at h
      cases hsf : processCombFile st ext jarName f with
      | ok st1 =>
        rw [hsf] at h
        dsimp only at h
        exact (ih st1 (hstep.1 st1 hsf)).2 e h
      | error e1 =>
        rw [hsf] at h
        dsimp only at h
        injection h with h
        subst h
        exact hstep.2 e1 hsf

theorem combPres_groups (fs0 : String → List Nat) (out : String) (P : CombState → Prop)
    (hApp : ∀ st ext e, P st → P (appendEntry st ext e))
    (hOpen : ∀ st ext, P st → P (openCombFile fs0 out st ext)) (jarName : String) :
    ∀ (groups : List (String × List SrcFile)) (st : CombState), P st →
      (∀ st', processCombGroups fs0 out jarName st groups = .ok st' → P st') ∧
      (∀ e, processCombGroups fs0 out jarName st groups = .error e → P e) := by
  intro groups
  induction groups with
  | nil =>
    intro st hP
    constructor
    · intro st' h
      cases h
      exact hP
    · intro e h
      exact absurd h (by simp [processCombGroups])
  | cons g rest ih =>
    intro st hP
    obtain ⟨ext, files⟩ := g
    have hgrp : (∀ st1, processCombGroup fs0 out jarName st ext files = .ok st1 → P st1) ∧
        (∀ e, processCombGroup fs0 out jarName st ext files = .error e → P e) := by
      by_cases hbin : ext ∈ BINARY_EXTENSIONS
      · constructor
        · intro st1 h
          rw [processCombGroup, if_pos hbin] at h
          cases h
          exact hP
        · intro e h
          rw [processCombGroup, if_pos hbin] at h
          exact absurd h (by simp)
      · have hP1 : P (if (lookupA st.openFiles ext).isSome then st
            else openCombFile fs0 out st ext) := by
          by_cases hk : (lookupA st.openFiles ext).isSome
          · rw [if_pos hk]
            exact hP
          · rw [if_neg hk]
            exact hOpen st ext hP
        constructor
        · intro st1 h
          rw [processCombGroup, if_neg hbin] at h
          exact (combPres_files P hApp jarName ext (sortFiles files) _ hP1).1 st1 h
        · intro e h
          rw [processCombGroup, if_neg hbin] at h
          exact (combPres_files P hApp jarName ext (sortFiles files) _ hP1).2 e h
    constructor
    · intro st' h
      rw [processCombGroups] at h
      cases hg : processCombGroup fs0 out jarName st ext files with
      | ok st1 =>
        rw [hg] at h
        dsimp only at h
        exact (ih st1 (hgrp.1 st1 hg)).1 st' h
      | error e1 =>
        rw [hg] at h
        dsimp only at h
        exact absurd h (by simp)
    · intro e h
      rw [processCombGroups] at h
      cases hg : processCombGroup fs0 out jarName st ext files with
      | ok st1 =>
        rw [hg] at h
        dsimp only at h
        exact (ih st1 (hgrp.1 st1 hg)).2 e h
      | error e1 =>
        rw [hg] at h
        dsimp only at h
        injection h with h
        subst h
        exact hgrp.2 e1 hg

theorem combPres (fs0 : String → List Nat) (out : String) (P : CombState → Prop)
    (hApp : ∀ st ext e, P st → P (appendEntry st ext e))
    (hOpen : ∀ st ext, P st → P (openCombFile fs0 out st ext)) :
    ∀ (jars : List JarInput) (st : CombState), P st →
      (∀ st', combGo fs0 out st jars = .ok st' → P st') ∧
      (∀ e, combGo fs0 out st jars = .error e → P e) := by
  intro jars
  induction jars with
  | nil =>
    intro st hP
    constructor
    · intro st' h
      cases h
      exact hP
    · intro e h
      exact absurd h (by simp [combGo])
  | cons j rest ih =>
    intro st hP
    have hJ : (∀ st1, processJar fs0 out st j = .ok st1 → P st1) ∧
        (∀ e, processJar fs0 out st j = .error e → P e) := by
      by_cases hok : j.extractOk
      · constructor
        · intro st1 h
          rw [processJar, if_pos hok] at h
          exact (combPres_groups fs0 out P hApp hOpen j.jarName (groupByExt j.files) st hP).1 st1 h
        · intro e h
          rw [processJar, if_pos hok] at h
          exact (combPres_groups fs0 out P hApp hOpen j.jarName (groupByExt j.files) st hP).2 e h
      · constructor
        · intro st1 h
          rw [processJar, if_neg hok] at h
          cases h
          exact hP
        · intro e h
          rw [processJar, if_neg hok] at h
          exact absurd h (by simp)
    constructor
    · intro st' h
      rw [combGo] at h
      cases hj : processJar fs0 out st j with
      | ok st1 =>
        rw [hj] at h
        dsimp only at h
        exact (ih st1 (hJ.1 st1 hj)).1 st' h
      | error e1 =>
        rw [hj] at h
        dsimp only at h
        exact absurd h (by simp)
    · intro e h
      rw [combGo] at h
      cases hj : processJar fs0 out st j with
      | ok st1 =>
        rw [hj] at h
        dsimp only at h
        exact (ih st1 (hJ.1 st1 hj)).2 e h
      | error e1 =>
        rw [hj] at h
        dsimp only at h
        injection h with h
        subst h
        exact hJ.2 e1 hj

theorem lookupA_single {α : Type} (ext k : String) (b : α) :
    lookupA [(ext, b)] k = if ext = k then some b else none := rfl

theorem combStInv_append (fs0 : String → List Nat) (out : String) :
    ∀ (st : CombState) (ext : String) (e : CombEntry),
      combStInv fs0 out st → combStInv fs0 out (appendEntry st ext e) := by
  intro st ext e hInv
  obtain ⟨h1, h2, h3, h4⟩ := hInv
  refine ⟨h1, ?_, h3, ?_⟩
  · intro k hk
    apply h2 k
    show (lookupA st.openFiles k).isSome
    by_cases hke : k = ext
    · subst hke
      rw [show (appendEntry st k e).openFiles = updateB st.openFiles k e from rfl,
        lookupA_updateB_self st.openFiles k e] at hk
      cases hlk : lookupA st.openFiles k with
      | none =>
        rw [hlk] at hk
        exact absurd hk (by simp)
      | some b0 =>
        rfl
    · rw [show (appendEntry st ext e).openFiles = updateB st.openFiles ext e from rfl,
        lookupA_updateB_ne st.openFiles ext k e hke] at hk
      exact hk
  · intro k b hb
    by_cases hke : k = ext
    · subst hke
      rw [show (appendEntry st k e).openFiles = updateB st.openFiles k e from rfl,
        lookupA_updateB_self st.openFiles k e] at hb
      cases hlk : lookupA st.openFiles k with
      | none =>
        rw [hlk] at hb
        exact absurd hb (by simp)
      | some b0 =>
        rw [hlk] at hb
        injection hb with hb
        subst hb
        exact h4 k b0 hlk
    · rw [show (appendEntry st ext e).openFiles = updateB st.openFiles ext e from rfl,
        lookupA_updateB_ne st.openFiles ext k e hke] at hb
      exact h4 k b hb

theorem combStInv_open (fs0 : String → List Nat) (out : String) :
    ∀ (st : CombState) (ext : String),
      combStInv fs0 out st → combStInv fs0 out (openCombFile fs0 out st ext) := by
  intro st ext hInv
  obtain ⟨h1, h2, h3, h4⟩ := hInv
  have hmemIns : ∀ n, n ∈ st.created →
      n ∈ (openCombFile fs0 out st ext).created := by
    intro n hn
    show n ∈ (if combName out ext ∈ st.created then st.created
      else st.created ++ [combName out ext])
    by_cases hc : combName out ext ∈ st.created
    · rw [if_pos hc]
      exact hn
    · rw [if_neg hc]
      exact List.mem_append_left _ hn
  have hNewIns : combName out ext ∈ (openCombFile fs0 out st ext).created := by
    show combName out ext ∈ (if combName out ext ∈ st.created then st.created
      else st.created ++ [combName out ext])
    by_cases hc : combName out ext ∈ st.created
    · rw [if_pos hc]
      exact hc
    · rw [if_neg hc]
      exact List.mem_append_right _ (List.mem_singleton.mpr rfl)
  refine ⟨?_, ?_, ?_, ?_⟩
  · show (if combName out ext ∈ st.created then st.created
      else st.created ++ [combName out ext]).Nodup
    by_cases hc : combName out ext ∈ st.created
    · rw [if_pos hc]
      exact h1
    · rw [if_neg hc]
      rw [List.nodup_append]
      refine ⟨h1, List.nodup_singleton _, ?_⟩
      intro x hx hmem
      rw [List.mem_singleton] at hmem
      subst hmem
      exact hc hx
  · intro k hk
    rw [show (openCombFile fs0 out st ext).openFiles
        = st.openFiles ++ [(ext, ⟨combName out ext, fs0 (combName out ext), []⟩)] from rfl,
      lookupA_append] at hk
    cases hlk : lookupA st.openFiles k with
    | some b =>
      exact hmemIns _ (h2 k (by rw [hlk]; rfl))
    | none =>
      rw [hlk] at hk
      dsimp only at hk
      rw [lookupA_single] at hk
      by_cases hke : ext = k
      · subst hke
        exact hNewIns
      · rw [if_neg hke] at hk
        exact absurd hk (by simp)
  · intro n hn
    have : n ∈ (if combName out ext ∈ st.created then st.created
        else st.created ++ [combName out ext]) := hn
    by_cases hc : combName out ext ∈ st.created
    · rw [if_pos hc] at this
      exact h3 n this
    · rw [if_neg hc] at this
      rcases List.mem_append.mp this with hmem | hmem
      · exact h3 n hmem
      · rw [List.mem_singleton] at hmem
        exact ⟨ext, hmem⟩
  · intro k b hb
    rw [show (openCombFile fs0 out st ext).openFiles
        = st.openFiles ++ [(ext, ⟨combName out ext, fs0 (combName out ext), []⟩)] from rfl,
      lookupA_append] at hb
    cases hlk : lookupA st.openFiles k with
    | some b0 =>
      rw [hlk] at hb
      dsimp only at hb
      injection hb with hb
      subst hb
      exact h4 k b0 hlk
    | none =>
      rw [hlk] at hb
      dsimp only at hb
      rw [lookupA_single] at hb
      by_cases hke : ext = k
      · subst hke
        rw [if_pos rfl] at hb
        injection hb with hb
        subst hb
        exact ⟨rfl, rfl⟩
      · rw [if_neg hke] at hb
        exact absurd hb (by simp)

/-- C4.  For a Combined-mode run that completes normally: every key's
bundle, when present, is exactly the single part-1 file
`<keyWithoutDot>_context_1.txt`, whose records are the concatenation —
over extraction-successful jars in run order — of that jar's path-sorted
files for the key, each record stamped with the source jar's name and the
file's name; a key has a bundle iff some processed jar produced it
(non-binary); every created file name is recorded exactly once and every
created name is a part-1 name (no other part is ever created); and the
bundle's byte content is its pre-existing content followed by
header-plus-content pairs. -/
theorem c4_combined_single_bundle :
    ∀ (fs0 : String → List Nat) (out : String) (jars : List JarInput) (st : CombState),
      combinedRun fs0 out jars = .ok st →
      st.created.Nodup ∧
      (∀ n ∈ st.created, ∃ ext, n = combName out ext) ∧
      (∀ ext, lookupA st.openFiles ext =
        if runTouches jars ext = true
        then some ⟨combName out ext, fs0 (combName out ext), runRecords jars ext⟩
        else none) ∧
      (∀ ext, runTouches jars ext = true → combName out ext ∈ st.created) ∧
      (∀ ext b, lookupA st.openFiles ext = some b →
        combContent b
          = fs0 (combName out ext) ++ (runRecords jars ext).flatMap combRecordText) := by
  intro fs0 out jars st h
  unfold combinedRun at h
  cases hg : combGo fs0 out ⟨[], [], [], []⟩ jars with
  | error e =>
    rw [hg] at h
    dsimp only at h
    exact absurd h (by simp)
  | ok st1 =>
    rw [hg] at h
    dsimp only at h
    injection h with h
    subst h
    have hInit : combStInv fs0 out ⟨[], [], [], []⟩ := by
      refine ⟨List.nodup_nil, ?_, ?_, ?_⟩
      · intro k hk
        exact absurd hk (by simp [lookupA])
      · intro n hn
        exact absurd hn (by simp)
      · intro k b hb
        exact absurd hb (by simp [lookupA])
    have hInv := (combPres fs0 out (combStInv fs0 out) (combStInv_append fs0 out)
      (combStInv_open fs0 out) jars ⟨[], [], [], []⟩ hInit).1 st1 hg
    have hlook := combGo_ok_lookup fs0 out jars ⟨[], [], [], []⟩ st1 hg
    have hlook' : ∀ ext, lookupA (closeAll st1).openFiles ext =
        if runTouches jars ext = true
        then some ⟨combName out ext, fs0 (combName out ext), runRecords jars ext⟩
        else none := by
      intro ext
      have := hlook ext
      rw [show lookupA (⟨[], [], [], []⟩ : CombState).openFiles ext = none from rfl] at this
      exact this
    refine ⟨hInv.1, hInv.2.2.1, hlook', ?_, ?_⟩
    · intro ext htch
      apply hInv.2.1 ext
      show (lookupA (closeAll st1).openFiles ext).isSome = true
      rw [hlook' ext, if_pos htch]
      rfl
    · intro ext b hb
      rw [hlook' ext] at hb
      by_cases htch : runTouches jars ext = true
      · rw [if_pos htch] at hb
        injection hb with hb
        subst hb
        rfl
      · rw [if_neg htch] at hb
        exact absurd hb (by simp)

/-- Witness for C4: two jars `A.jar` and `B.jar` each contributing one
`.java` file; both land in the single bundle `java_context_1.txt` in run
order, stamped with their jar names. -/
theorem c4_combined_single_bundle_witness :
    combinedRun (fun _ => []) "out"
        [⟨"A", "A.jar", true, "tmpA", [⟨"tmpA/x.java", some 5, ReadOutcome.bytes [97]⟩]⟩,
         ⟨"B", "B.jar", true, "tmpB", [⟨"tmpB/y.java", some 5, ReadOutcome.bytes [98]⟩]⟩]
      = .ok ⟨[(".java", ⟨"out/java_context_1.txt", [],
                [⟨"A.jar", "x.java", [97]⟩, ⟨"B.jar", "y.java", [98]⟩]⟩)],
             ["out/java_context_1.txt"], ["out/java_context_1.txt"],
             ["out/java_context_1.txt"]⟩ ∧
    ((["out/java_context_1.txt"] : List String).Nodup ∧
      (∀ n ∈ (["out/java_context_1.txt"] : List String), ∃ ext, n = combName "out" ext) ∧
      (∀ ext, lookupA [(".java", (⟨"out/java_context_1.txt", [],
            [⟨"A.jar", "x.java", [97]⟩, ⟨"B.jar", "y.java", [98]⟩]⟩ : CombBundle))] ext =
        if runTouches
            [⟨"A", "A.jar", true, "tmpA", [⟨"tmpA/x.java", some 5, ReadOutcome.bytes [97]⟩]⟩,
             ⟨"B", "B.jar", true, "tmpB", [⟨"tmpB/y.java", some 5, ReadOutcome.bytes [98]⟩]⟩]
            ext = true
        then some ⟨combName "out" ext, (fun _ => ([] : List Nat)) (combName "out" ext),
          runRecords
            [⟨"A", "A.jar", true, "tmpA", [⟨"tmpA/x.java", some 5, ReadOutcome.bytes [97]⟩]⟩,
             ⟨"B", "B.jar", true, "tmpB", [⟨"tmpB/y.java", some 5, ReadOutcome.bytes [98]⟩]⟩]
            ext⟩
        else none) ∧
      (∀ ext, runTouches
          [⟨"A", "A.jar", true, "tmpA", [⟨"tmpA/x.java", some 5, ReadOutcome.bytes [97]⟩]⟩,
           ⟨"B", "B.jar", true, "tmpB", [⟨"tmpB/y.java", some 5, ReadOutcome.bytes [98]⟩]⟩]
          ext = true →
        combName "out" ext ∈ (["out/java_context_1.txt"] : List String)) ∧
      (∀ ext b, lookupA [(".java", (⟨"out/java_context_1.txt", [],
            [⟨"A.jar", "x.java", [97]⟩, ⟨"B.jar", "y.java", [98]⟩]⟩ : CombBundle))] ext
          = some b →
        combContent b = (fun _ => ([] : List Nat)) (combName "out" ext)
          ++ (runRecords
            [⟨"A", "A.jar", true, "tmpA", [⟨"tmpA/x.java", some 5, ReadOutcome.bytes [97]⟩]⟩,
             ⟨"B", "B.jar", true, "tmpB", [⟨"tmpB/y.java", some 5, ReadOutcome.bytes [98]⟩]⟩]
            ext).flatMap combRecordText)) :=
  ⟨rfl,
   c4_combined_single_bundle (fun _ => []) "out"
     [⟨"A", "A.jar", true, "tmpA", [⟨"tmpA/x.java", some 5, ReadOutcome.bytes [97]⟩]⟩,
      ⟨"B", "B.jar", true, "tmpB", [⟨"tmpB/y.java", some 5, ReadOutcome.bytes [98]⟩]⟩]
     ⟨[(".java", ⟨"out/java_context_1.txt", [],
         [⟨"A.jar", "x.java", [97]⟩, ⟨"B.jar", "y.java", [98]⟩]⟩)],
       ["out/java_context_1.txt"], ["out/java_context_1.txt"], ["out/java_context_1.txt"]⟩
     rfl⟩

/-- C10.  Combined mode opens each bundle in append mode, so on every
run (normal or aborted), every bundle's on-disk content is exactly its
pre-existing content followed by this run's records — prior content is
preserved, never truncated. -/
theorem c10_append_mode :
    ∀ (fs0 : String → List Nat) (out : String) (jars : List JarInput) (ext : String)
      (b : CombBundle),
      lookupA (combFinal (combinedRun fs0 out jars)).openFiles ext = some b →
      b.pre = fs0 b.name ∧
      combContent b = fs0 b.name ++ b.entries.flatMap combRecordText := by
  intro fs0 out jars ext b hb
  have hInit : combStInv fs0 out ⟨[], [], [], []⟩ := by
    refine ⟨List.nodup_nil, ?_, ?_, ?_⟩
    · intro k hk
      exact absurd hk (by simp [lookupA])
    · intro n hn
      exact absurd hn (by simp)
    · intro k b' hb'
      exact absurd hb' (by simp [lookupA])
  have hPres := combPres fs0 out (combStInv fs0 out) (combStInv_append fs0 out)
    (combStInv_open fs0 out) jars ⟨[], [], [], []⟩ hInit
  unfold combinedRun at hb
  cases hg : combGo fs0 out ⟨[], [], [], []⟩ jars with
  | ok st1 =>
    rw [hg] at hb
    dsimp only [combFinal] at hb
    have hInv := hPres.1 st1 hg
    have hnp := hInv.2.2.2 ext b hb
    refine ⟨?_, ?_⟩
    · rw [hnp.2, hnp.1]
    · rw [combContent, hnp.2, hnp.1]
  | error e =>
    rw [hg] at hb
    dsimp only [combFinal] at hb
    have hInv := hPres.2 e hg
    have hnp := hInv.2.2.2 ext b hb
    refine ⟨?_, ?_⟩
    · rw [hnp.2, hnp.1]
    · rw [combContent, hnp.2, hnp.1]

/-- Witness for C10: a run over a directory whose bundle path already
holds content `[55]`; the final bundle starts with that content. -/
theorem c10_append_mode_witness :
    lookupA (combFinal (combinedRun
        (fun n => if n = "out/java_context_1.txt" then [55] else []) "out"
        [⟨"A", "A.jar", true, "tmpA", [⟨"tmpA/x.java", some 5, ReadOutcome.bytes [97]⟩]⟩])).openFiles
        ".java"
      = some ⟨"out/java_context_1.txt", [55], [⟨"A.jar", "x.java", [97]⟩]⟩ ∧
    ((⟨"out/java_context_1.txt", [55], [⟨"A.jar", "x.java", [97]⟩]⟩ : CombBundle).pre
        = (fun n => if n = "out/java_context_1.txt" then [55] else ([] : List Nat))
            (⟨"out/java_context_1.txt", [55], [⟨"A.jar", "x.java", [97]⟩]⟩ : CombBundle).name ∧
      combContent (⟨"out/java_context_1.txt", [55], [⟨"A.jar", "x.java", [97]⟩]⟩ : CombBundle)
        = (fun n => if n = "out/java_context_1.txt" then [55] else ([] : List Nat))
            (⟨"out/java_context_1.txt", [55], [⟨"A.jar", "x.java", [97]⟩]⟩ : CombBundle).name
          ++ ((⟨"out/java_context_1.txt", [55], [⟨"A.jar", "x.java", [97]⟩]⟩ : CombBundle).entries).flatMap
            combRecordText) :=
  ⟨rfl,
   c10_append_mode (fun n => if n = "out/java_context_1.txt" then [55] else []) "out"
     [⟨"A", "A.jar", true, "tmpA", [⟨"tmpA/x.java", some 5, ReadOutcome.bytes [97]⟩]⟩]
     ".java" ⟨"out/java_context_1.txt", [55], [⟨"A.jar", "x.java", [97]⟩]⟩ rfl⟩
